import Mathlib

/-!
# AFTERFAC: after-the-fact oracle (`src/AFTERFAC.CPP`)

Shallow embedding of the class `AfterFact` (constructor and `predict`) and a
verification development over it.

Conventions of the embedding.

* A C array is a `List`; reading `a[i]` is `a.getD i 0`.  A pointer into an
  array (`tset + icase * (nin + 1)`, `outputs + icase * nmodels`) is the suffix
  `List.drop` of that array.
* `double` values are the elements of an arbitrary linearly ordered ring `α`:
  the comparisons `<=`, `>`, `<`, the subtraction and `fabs` of the source are
  the exact operations of `α` (no rounding, no NaN).
* A `for (i=0 ; i<n ; i++)` loop is a `List.foldl` over `List.range n` that
  threads the variables the loop writes.
* The `for (;;)` bisection is a function with a fuel argument that returns
  `none` when the fuel runs out; `bisect_terminates` shows that the fuel the
  callers pass is always enough.
* `int` sizes and indices are natural numbers, except for the bin count
  `nbins`, whose repeated multiplication is embedded with 32-bit
  two's-complement wrap-around (`wrapInt`).
* The global `models` array is a parameter `models : Nat → List α → α`:
  `models imodel p` is the output that `models[imodel]->predict (p, &out)`
  stores in `out`.
-/

namespace AfterFac

/-! ## Machine `int` and the bin count -/

/-- The value of a 32-bit two's-complement `int` that holds the mathematical
integer `z` after wrap-around. -/
def wrapInt (z : Int) : Int := (z + 2147483648) % 4294967296 - 2147483648

/-- The loop `nbins = 1 ; for (i=0 ; i<nmodels ; i++) nbins *= ncats ;` of the
constructor, in 32-bit `int` arithmetic. -/
def nbinsLoop (nmodels ncats : Int) : Int :=
  (List.range nmodels.toNat).foldl (fun nbins _ => wrapInt (nbins * ncats)) 1

/-! ## Quantization of one model output -/

section Quantize

variable {α : Type} [LinearOrderedRing α]

/-- The interior `for (;;)` loop shared by the constructor and `predict`:
`k = (klow + khigh) / 2 ; if (k == klow) { k = khigh ; break ; }
 if (x <= thresh[imodel*nthresh+k]) khigh = k ; else klow = k ;`.
The result is the value of `k` at the `break`; `none` means the fuel ran out
before the loop reached its `break`. -/
def bisect (thresh : List α) (nthresh imodel : Nat) (x : α) : Nat → Nat → Nat → Option Nat
  | 0, _, _ => none
  | fuel + 1, klow, khigh =>
    let k := (klow + khigh) / 2
    if k = klow then some khigh
    else if x ≤ thresh.getD (imodel * nthresh + k) 0 then bisect thresh nthresh imodel x fuel klow k
    else bisect thresh nthresh imodel x fuel k khigh

/-- One pass of the body of the `for (;;)` loop on the variables
`(klow, khigh)`: `Sum.inr k` is the `break` with the final value of `k`,
`Sum.inl (klow, khigh)` holds the variables after a pass that does not break. -/
def bisectStep (thresh : List α) (nthresh imodel : Nat) (x : α) (klow khigh : Nat) :
    (Nat × Nat) ⊕ Nat :=
  let k := (klow + khigh) / 2
  if k = klow then Sum.inr khigh
  else if x ≤ thresh.getD (imodel * nthresh + k) 0 then Sum.inl (klow, k)
  else Sum.inl (k, khigh)

/-- The category digit `k` the constructor computes for output `x` of model
`imodel` (lines 151-170): bottom bin `0`, topmost bin `nthresh`, otherwise the
bisection started at `klow = 0`, `khigh = nthresh - 1`. -/
def trainDigit (thresh : List α) (nthresh imodel : Nat) (x : α) : Option Nat :=
  if x ≤ thresh.getD (imodel * nthresh) 0 then some 0
  else if x > thresh.getD (imodel * nthresh + nthresh - 1) 0 then some nthresh
  else bisect thresh nthresh imodel x nthresh 0 (nthresh - 1)

/-- The category digit `k` that `AfterFact::predict` computes for output `out`
of model `imodel` (lines 241-259): as `trainDigit`, except that the branch
`out > thresh[imodel*nthresh+nthresh-1]` assigns `nthresh - 1`. -/
def predictDigit (thresh : List α) (nthresh imodel : Nat) (out : α) : Option Nat :=
  if out ≤ thresh.getD (imodel * nthresh) 0 then some 0
  else if out > thresh.getD (imodel * nthresh + nthresh - 1) 0 then some (nthresh - 1)
  else bisect thresh nthresh imodel out nthresh 0 (nthresh - 1)

end Quantize

/-! ## Region id accumulation -/

/-- The accumulation `ibin = 0 ; index = 1 ;` then, for each model in order,
`ibin += k * index ; index *= ncats ;`, where `digit imodel` is the `k`
computed for model `imodel`.  The result is the pair `(ibin, index)`. -/
def binLoop (digit : Nat → Nat) (ncats nmodels : Nat) : Nat × Nat :=
  (List.range nmodels).foldl
    (fun s imodel => (s.1 + digit imodel * s.2, s.2 * ncats)) (0, 1)

/-- The data members of class `AfterFact`. -/
structure AfterFact (α : Type) where
  /-- Number of cases -/
  ncases : Nat
  /-- Number of original case inputs -/
  nin : Nat
  /-- Number of models -/
  nmodels : Nat
  /-- Number of categories -/
  ncats : Nat
  /-- Work vector nmodels long holds outputs for a case -/
  outwork : List α
  /-- Nmodels by nfrac=ncats-1 array of fractile thresholds -/
  thresh : List α
  /-- Index of winning model for each bin -/
  winners : List Nat

/-- The conversion `(int) q` of a non-integral value: truncation toward zero. -/
def truncInt (q : ℚ) : Int := if 0 ≤ q then Rat.floor q else Rat.ceil q

/-- The subscript `(int)(frac*(ncases-1))` with `frac = (double) (i+1) /
(double) ncats` (lines 131-132).  The `double` arithmetic is embedded as exact
rational arithmetic. -/
def fracIndex (i ncats ncases : Nat) : Int :=
  let frac : ℚ := ((i + 1 : Nat) : ℚ) / ((ncats : Nat) : ℚ)
  truncInt (frac * (((ncases : Int) - 1 : Int) : ℚ))

section Oracle

variable {α : Type} [LinearOrderedRing α]

/-- Modelled from the spec: `qsortd (first, last, data)` is declared in
`AFTERFAC.CPP` but its body is not among the sources; the spec says "sort
ascending".  It is embedded as a sort of the whole work vector into
non-decreasing order. -/
def qsortd (work : List α) : List α := work.insertionSort (fun a b => a ≤ b)

/-- The first pass of the constructor (lines 115-120): `outputs` is the
`ncases` by `nmodels` array with `outputs[icase*nmodels+imodel]` the output of
model `imodel` on case `icase`. -/
def computeOutputs (models : Nat → List α → α) (ncases nin nmodels : Nat)
    (tset : List α) : List α :=
  (List.range ncases).flatMap fun icase =>
    (List.range nmodels).map fun imodel => models imodel (tset.drop (icase * (nin + 1)))

/-- The vector `work` of model `imodel` before sorting (lines 127-128):
`work[icase] = outputs[icase*nmodels+imodel]`. -/
def workColumn (outputs : List α) (ncases nmodels imodel : Nat) : List α :=
  (List.range ncases).map fun icase => outputs.getD (icase * nmodels + imodel) 0

/-- The threshold table (lines 126-135): for each model the sorted `work`
vector is read at `(int)(frac*(ncases-1))` for `i = 0 .. nthresh-1`, and the
value is stored in `thresh[imodel*nthresh+i]`. -/
def computeThresh (outputs : List α) (ncases nmodels ncats : Nat) : List α :=
  (List.range nmodels).flatMap fun imodel =>
    (List.range (ncats - 1)).map fun i =>
      (qsortd (workColumn outputs ncases nmodels imodel)).getD (fracIndex i ncats ncases).toNat 0

/-- The bin `ibin` of one training case (lines 148-174); `outptr` points to the
case's row of `outputs`.  The bisection is run with the fuel `nthresh`, which
is always enough (`bisect_terminates`), so the default of `Option.getD` is
never used. -/
def trainBin (thresh : List α) (ncats nmodels : Nat) (outptr : List α) : Nat :=
  (binLoop (fun imodel => (trainDigit thresh (ncats - 1) imodel (outptr.getD imodel 0)).getD 0)
    ncats nmodels).1

/-- The loop that determines the best model of one case (lines 178-184), with
the variables `(best, k)` threaded; `target` is `case_ptr[nin]`.  Both
variables are assigned in the pass `imodel == 0`, so their initial values are
immaterial. -/
def bestLoop (outptr : List α) (target : α) (nmodels : Nat) : α × Nat :=
  (List.range nmodels).foldl
    (fun s imodel =>
      let diff := |outptr.getD imodel 0 - target|
      if imodel = 0 ∨ diff < s.1 then (diff, imodel) else s)
    (0, 0)

/-- The index `k` of the model credited with the win of one case. -/
def bestModel (outptr : List α) (target : α) (nmodels : Nat) : Nat :=
  (bestLoop outptr target nmodels).2

/-- The array `bins` after the loop over all cases (lines 109, 145-187): all
counters start at zero and each case executes `++bins[ibin*nmodels+k]`.  The
counters only grow from zero, so they are natural numbers. -/
def countBins (thresh outputs tset : List α) (ncases nin nmodels ncats nbins : Nat) :
    List Nat :=
  (List.range ncases).foldl
    (fun bins icase =>
      let case_ptr := tset.drop (icase * (nin + 1))
      let outptr := outputs.drop (icase * nmodels)
      let ibin := trainBin thresh ncats nmodels outptr
      let k := bestModel outptr (case_ptr.getD nin 0) nmodels
      bins.modify (fun c => c + 1) (ibin * nmodels + k))
    (List.replicate (nbins * nmodels) 0)

/-- The loop that finds the winning model of bin `ibin` (lines 196-203), with
the variables `(k, ibest)` threaded. -/
def winnerLoop (bins : List Nat) (nmodels ibin : Nat) : Nat × Nat :=
  (List.range nmodels).foldl
    (fun s imodel =>
      if bins.getD (ibin * nmodels + imodel) 0 > s.2
      then (imodel, bins.getD (ibin * nmodels + imodel) 0) else s)
    (0, 0)

/-- The array `winners` (lines 195-206). -/
def computeWinners (bins : List Nat) (nbins nmodels : Nat) : List Nat :=
  (List.range nbins).map fun ibin => (winnerLoop bins nmodels ibin).1

/-- The scratch array `bins` of the constructor `AfterFact (n, ninputs, tset,
nmods, ncat)` at the end of the training pass. -/
def trainedBins (models : Nat → List α → α) (n ninputs : Nat) (tset : List α)
    (nmods ncat : Nat) : List Nat :=
  let outputs := computeOutputs models n ninputs nmods tset
  let thresh := computeThresh outputs n nmods ncat
  countBins thresh outputs tset n ninputs nmods ncat (nbinsLoop nmods ncat).toNat

/-- The bin `ibin` in which the constructor tallies training case `icase`
(lines 145-174 for that case). -/
def caseBin (models : Nat → List α → α) (n ninputs : Nat) (tset : List α)
    (nmods ncat icase : Nat) : Nat :=
  let outputs := computeOutputs models n ninputs nmods tset
  trainBin (computeThresh outputs n nmods ncat) ncat nmods (outputs.drop (icase * nmods))

/-- The constructor `AfterFact::AfterFact (n, ninputs, tset, nmods, ncat)`.
The uninitialised scratch vector `outwork` is filled with zeros. -/
def construct (models : Nat → List α → α) (n ninputs : Nat) (tset : List α)
    (nmods ncat : Nat) : AfterFact α :=
  let outputs := computeOutputs models n ninputs nmods tset
  { ncases := n
    nin := ninputs
    nmodels := nmods
    ncats := ncat
    outwork := List.replicate nmods 0
    thresh := computeThresh outputs n nmods ncat
    winners := computeWinners (trainedBins models n ninputs tset nmods ncat)
      (nbinsLoop nmods ncat).toNat nmods }

/-- The loop of `AfterFact::predict` (lines 233-262), with the variables
`(outwork, ibin, index)` threaded: each model is invoked on `input`, its output
is stored in `outwork[imodel]` and its digit is accumulated into `ibin`. -/
def predictLoop (models : Nat → List α → α) (af : AfterFact α) (input : List α) :
    List α × Nat × Nat :=
  (List.range af.nmodels).foldl
    (fun s imodel =>
      let out := models imodel input
      let k := (predictDigit af.thresh (af.ncats - 1) imodel out).getD 0
      (s.1.set imodel out, s.2.1 + k * s.2.2, s.2.2 * af.ncats))
    (af.outwork, 0, 1)

/-- The bin `ibin` that `AfterFact::predict` looks up for `input`. -/
def predictBin (models : Nat → List α → α) (af : AfterFact α) (input : List α) : Nat :=
  (predictLoop models af input).2.1

/-- The method `AfterFact::predict (input, output)`: the oracle after the call
(only `outwork` is written) and the value stored in `*output`, which is
`outwork[winners[ibin]]`. -/
def predict (models : Nat → List α → α) (af : AfterFact α) (input : List α) :
    AfterFact α × α :=
  let s := predictLoop models af input
  ({ af with outwork := s.1 }, s.1.getD (af.winners.getD s.2.1 0) 0)

end Oracle

/-! ## Error reporting and the test harness -/

/-- Result of the command line processing of `main` (lines 298-322): the
process has called `exit (status)`, or the parsed parameters are kept and
`main` goes on. -/
inductive ArgResult (α : Type) where
  /-- The call `exit (status)`. -/
  | exited (status : Int) : ArgResult α
  /-- The parameters `nsamps`, `nbins`, `nmodels`, `ntries`, `std` passed the tests. -/
  | accepted (nsamps nbins nmodels ntries : Int) (std : α) : ArgResult α

/-- The command line processing of `main` (lines 298-322, the `#if 1` branch).
`argv i` is the argument string `argv[i]`; the library functions `atoi` and
`atof` are parameters. -/
def processArgs {α Arg : Type} [LinearOrderedRing α] (atoi : Arg → Int) (atof : Arg → α)
    (argc : Int) (argv : Nat → Arg) : ArgResult α :=
  if argc ≠ 6 then ArgResult.exited 1
  else
    let nsamps := atoi (argv 1)
    let nbins := atoi (argv 2)
    let nmodels := atoi (argv 3)
    let ntries := atoi (argv 4)
    let std := atof (argv 5)
    if nsamps ≤ 0 ∨ nbins ≤ 1 ∨ nmodels ≤ 0 ∨ ntries ≤ 0 ∨ std < 0 then ArgResult.exited 1
    else ArgResult.accepted nsamps nbins nmodels ntries std

/-- Example model set: model `imodel` returns input number `imodel` of the
case it is given. -/
def exampleModels : Nat → List Int → Int := fun imodel p => p.getD imodel 0

/-- Example training set: 4 cases of 2 inputs followed by the true value. -/
def exampleTset : List Int := [1, 5, 3, 2, 6, 3, 3, 7, 7, 4, 8, 8]

end AfterFac

/-!
# BOOT_P_1: bootstrap estimate of bias and variance (`src/BOOT_P_1.CPP`)

`double` values are the elements of a linearly ordered field `α` with exact
arithmetic.  A user function `double f (int n, double *x)` may write to the
array it is given (`param_median` sorts it), so it is embedded as a function
that returns its value together with the array as the call leaves it.  The
random number generator is outside the sources: `draw rep i` is the value of
`(int) (unifrand() * n)` computed for element `i` of replication `rep`, a
natural number because `unifrand` returns a value in `[0, 1)`.
-/

namespace BootP1

section Boot

variable {α : Type} [LinearOrderedField α]

/-- The function `param_median (n, x)` (lines 39-47): it sorts `x` in place
with `qsortd (0, n-1, x)` and returns the middle element or the mean of the
two middle elements. -/
def param_median (n : Nat) (x : List α) : α × List α :=
  if n % 2 ≠ 0 then ((AfterFac.qsortd x).getD (n / 2) 0, AfterFac.qsortd x)
  else
    ((1 / 2) * ((AfterFac.qsortd x).getD (n / 2 - 1) 0 + (AfterFac.qsortd x).getD (n / 2) 0),
     AfterFac.qsortd x)

/-- The divisor `(nboot - 1)` of the last statement of `boot_bias_var` (line
98), an `int`. -/
def varDivisor (nboot : Int) : Int := nboot - 1

end Boot

/-- Result of the command line processing of the `main` of BOOT_P_1 (lines
126-139). -/
inductive BootArgs where
  /-- The call `exit (status)`. -/
  | exited (status : Int) : BootArgs
  /-- The parameters `nsamps`, `nboot`, `ntries` passed the tests. -/
  | accepted (nsamps nboot ntries : Int) : BootArgs
  deriving DecidableEq

/-- The command line processing of the `main` of BOOT_P_1 (lines 126-139);
`atoi` is a parameter. -/
def bootProcessArgs {Arg : Type} (atoi : Arg → Int) (argc : Int) (argv : Nat → Arg) :
    BootArgs :=
  if argc ≠ 4 then BootArgs.exited 1
  else
    let nsamps := atoi (argv 1)
    let nboot := atoi (argv 2)
    let ntries := atoi (argv 3)
    if nsamps ≤ 0 ∨ nboot ≤ 0 ∨ ntries ≤ 0 then BootArgs.exited 1
    else BootArgs.accepted nsamps nboot ntries

end BootP1

/-!
# MI_ONLY: mutual information with a Monte-Carlo permutation test (`src/MI_ONLY.CPP`)

Only the tie check (lines 125-143) and the permutation-test counters (lines
173-257) of `main` are embedded.  The mutual information estimator is outside
the sources: `crit irep icand` is the value that `mi_adapt->mut_inf (work, 1)`
returns in replication `irep` for candidate `icand`.  The sort `qsortdsi`
(sort `data` ascending and move `slave` along) is a parameter; `qsortd` is the
ascending sort `AfterFac.qsortd`.
-/

namespace MiOnly

section Mi

variable {α : Type} [LinearOrderedField α]

/-- The test of line 128, `ivar > n_indep_vars && ivar != idep`, on which the
tie-check loop executes `continue`. -/
def tieCheckSkips (n_indep_vars idep ivar : Nat) : Bool :=
  decide (ivar > n_indep_vars ∧ ivar ≠ idep)

/-- The number `nties` of adjacent equal values of the sorted vector `work`
(lines 133-137). -/
def countTies (work : List α) (ncases : Nat) : Nat :=
  (List.range (ncases - 1)).foldl
    (fun nties j => if work.getD (j + 1) 0 = work.getD j 0 then nties + 1 else nties) 0

/-- The tie-check loop over all variables (lines 125-143), with the variable
`ties` and the list of the variables whose ties were examined (those for which
the pass did not `continue`) threaded. -/
def tieCheckLoop (data : List α) (nvars ncases n_indep_vars idep : Nat) : Nat × List Nat :=
  (List.range nvars).foldl
    (fun s ivar =>
      if tieCheckSkips n_indep_vars idep ivar then s
      else
        let work := AfterFac.qsortd
          ((List.range ncases).map fun i => data.getD (i * nvars + ivar) 0)
        let nties := countTies work ncases
        (if (nties : α) / (ncases : α) > 5 / 100 then s.1 + 1 else s.1, s.2 ++ [ivar]))
    (0, [])

end Mi

section Permutation

variable {α : Type} [LinearOrderedRing α]

/-- The variables of the permutation test that outlive a replication. -/
structure Mcpt (α : Type) where
  /-- Mutual information criterion of the unpermuted replication -/
  crits : List α
  /-- Indices that sort the criterion -/
  index : List Nat
  /-- Count of replications whose largest criterion reaches the candidate's -/
  mcpt_max_counts : List Nat
  /-- Count of replications whose criterion of the same rank reaches the candidate's -/
  mcpt_same_counts : List Nat
  /-- Count of replications whose criterion of the candidate reaches its original one -/
  mcpt_solo_counts : List Nat

/-- The vector `save_info` after the candidate loop of replication `irep`
(lines 206-212): `save_info[icand] = criterion`. -/
def saveInfo (crit : Nat → Nat → α) (n_indep_vars irep : Nat) : List α :=
  (List.range n_indep_vars).map (crit irep)

/-- The unpermuted replication `irep == 0` (lines 214-218 and 228-229): every
candidate sets `index[icand] = icand`, `crits[icand] = criterion` and its three
counters to 1; then `qsortdsi` sorts `save_info` and moves `index` along. -/
def repOriginal (qsortdsi : List α → List Nat → List α × List Nat) (crit : Nat → Nat → α)
    (n_indep_vars : Nat) : Mcpt α :=
  { crits := saveInfo crit n_indep_vars 0
    index := (qsortdsi (saveInfo crit n_indep_vars 0) (List.range n_indep_vars)).2
    mcpt_max_counts := List.replicate n_indep_vars 1
    mcpt_same_counts := List.replicate n_indep_vars 1
    mcpt_solo_counts := List.replicate n_indep_vars 1 }

/-- The counting of the candidate loop of a permuted replication (lines
219-222): `if (criterion >= crits[icand]) ++mcpt_solo_counts[icand] ;`. -/
def soloLoop (crits save_info : List α) (n_indep_vars : Nat) (solo : List Nat) : List Nat :=
  (List.range n_indep_vars).foldl
    (fun solo icand =>
      if save_info.getD icand 0 ≥ crits.getD icand 0 then solo.modify (fun c => c + 1) icand
      else solo)
    solo

/-- The loop over the sorted criteria of a permuted replication (lines
233-238), with the arrays `(mcpt_same_counts, mcpt_max_counts)` threaded. -/
def rankLoop (crits : List α) (index : List Nat) (save_info : List α) (n_indep_vars : Nat)
    (same max : List Nat) : List Nat × List Nat :=
  (List.range n_indep_vars).foldl
    (fun s icand =>
      (if save_info.getD icand 0 ≥ crits.getD (index.getD icand 0) 0
        then s.1.modify (fun c => c + 1) (index.getD icand 0) else s.1,
       if save_info.getD (n_indep_vars - 1) 0 ≥ crits.getD (index.getD icand 0) 0
        then s.2.modify (fun c => c + 1) (index.getD icand 0) else s.2))
    (same, max)

/-- A permuted replication `irep > 0` (lines 206-239). -/
def repPermuted (crit : Nat → Nat → α) (n_indep_vars : Nat) (s : Mcpt α) (irep : Nat) :
    Mcpt α :=
  { s with
    mcpt_solo_counts :=
      soloLoop s.crits (saveInfo crit n_indep_vars irep) n_indep_vars s.mcpt_solo_counts
    mcpt_same_counts :=
      (rankLoop s.crits s.index (AfterFac.qsortd (saveInfo crit n_indep_vars irep))
        n_indep_vars s.mcpt_same_counts s.mcpt_max_counts).1
    mcpt_max_counts :=
      (rankLoop s.crits s.index (AfterFac.qsortd (saveInfo crit n_indep_vars irep))
        n_indep_vars s.mcpt_same_counts s.mcpt_max_counts).2 }

/-- The loop over all `nreps` replications (lines 173-241).  The arrays are
allocated but not initialised before the loop; they are zero-filled here. -/
def mcptRun (qsortdsi : List α → List Nat → List α × List Nat) (crit : Nat → Nat → α)
    (n_indep_vars nreps : Nat) : Mcpt α :=
  (List.range nreps).foldl
    (fun s irep =>
      if irep = 0 then repOriginal qsortdsi crit n_indep_vars
      else repPermuted crit n_indep_vars s irep)
    { crits := List.replicate n_indep_vars 0
      index := List.replicate n_indep_vars 0
      mcpt_max_counts := List.replicate n_indep_vars 0
      mcpt_same_counts := List.replicate n_indep_vars 0
      mcpt_solo_counts := List.replicate n_indep_vars 0 }

end Permutation

/-- Example stand-in for `qsortdsi`: insertion sort of the pairs
`(data[i], slave[i])` on their first component. -/
def exampleQsortdsi (data : List Int) (slave : List Nat) : List Int × List Nat :=
  ((data.zip slave).insertionSort (fun a b => a.1 ≤ b.1)).unzip

/-- Example criteria: candidate `icand` has criterion `icand + 1` in the
unpermuted replication and `3 - icand` in every permuted one. -/
def exampleCrit (irep icand : Nat) : Int :=
  if irep = 0 then (icand : Int) + 1 else 3 - (icand : Int)

end MiOnly

/-! # Verification -/

namespace AfterFac

section QuantizeLemmas

variable {α : Type} [LinearOrderedRing α]

/-- The bisection reaches its `break` whenever it is entered with
`klow ≤ khigh` and more fuel than `khigh - klow`. -/
theorem bisect_terminates (thresh : List α) (nthresh imodel : Nat) (x : α) :
    ∀ (fuel klow khigh : Nat), klow ≤ khigh → khigh - klow < fuel →
      ∃ r, bisect thresh nthresh imodel x fuel klow khigh = some r := by
  intro fuel
  induction fuel with
  | zero => intro klow khigh _ h; omega
  | succ fuel ih =>
    intro klow khigh hle hf
    unfold bisect
    simp only
    by_cases hk : (klow + khigh) / 2 = klow
    · exact ⟨khigh, by simp [hk]⟩
    · have h1 : klow < (klow + khigh) / 2 := by omega
      have h2 : (klow + khigh) / 2 < khigh := by omega
      rw [if_neg hk]
      split
      · exact ih klow _ (by omega) (by omega)
      · exact ih _ khigh (by omega) (by omega)

/-- The loop invariant `thresh[klow] < x <= thresh[khigh]` of the bisection:
entered with it, the loop ends with a `k` in `(klow, khigh]` such that
`thresh[k-1] < x <= thresh[k]`. -/
theorem bisect_spec (thresh : List α) (nthresh imodel : Nat) (x : α) :
    ∀ (fuel klow khigh : Nat), klow < khigh → khigh - klow < fuel →
      thresh.getD (imodel * nthresh + klow) 0 < x →
      x ≤ thresh.getD (imodel * nthresh + khigh) 0 →
      ∃ r, bisect thresh nthresh imodel x fuel klow khigh = some r ∧
        klow < r ∧ r ≤ khigh ∧
        thresh.getD (imodel * nthresh + (r - 1)) 0 < x ∧
        x ≤ thresh.getD (imodel * nthresh + r) 0 := by
  intro fuel
  induction fuel with
  | zero => intro klow khigh _ h; omega
  | succ fuel ih =>
    intro klow khigh hlt hf hlo hhi
    unfold bisect
    simp only
    by_cases hk : (klow + khigh) / 2 = klow
    · refine ⟨khigh, by simp [hk], hlt, le_refl _, ?_, hhi⟩
      have : khigh - 1 = klow := by omega
      rw [this]; exact hlo
    · have h1 : klow < (klow + khigh) / 2 := by omega
      have h2 : (klow + khigh) / 2 < khigh := by omega
      rw [if_neg hk]
      by_cases hx : x ≤ thresh.getD (imodel * nthresh + (klow + khigh) / 2) 0
      · rw [if_pos hx]
        obtain ⟨r, hr, a, b, c, d⟩ := ih klow _ h1 (by omega) hlo hx
        exact ⟨r, hr, a, by omega, c, d⟩
      · rw [if_neg hx]
        obtain ⟨r, hr, a, b, c, d⟩ := ih _ khigh h2 (by omega) (lt_of_not_le hx) hhi
        exact ⟨r, hr, by omega, b, c, d⟩

/-- With at least one threshold the constructor's quantizer always produces a
digit: the fuel `nthresh` given to the bisection is enough. -/
theorem trainDigit_isSome (thresh : List α) (nthresh imodel : Nat) (x : α) (hn : 1 ≤ nthresh) :
    ∃ k, trainDigit thresh nthresh imodel x = some k := by
  unfold trainDigit
  split
  · exact ⟨0, rfl⟩
  · split
    · exact ⟨nthresh, rfl⟩
    · exact bisect_terminates thresh nthresh imodel x nthresh 0 (nthresh - 1)
        (Nat.zero_le _) (by omega)

/-- With at least one threshold the quantizer of `predict` always produces a
digit: the fuel `nthresh` given to the bisection is enough. -/
theorem predictDigit_isSome (thresh : List α) (nthresh imodel : Nat) (out : α)
    (hn : 1 ≤ nthresh) :
    ∃ k, predictDigit thresh nthresh imodel out = some k := by
  unfold predictDigit
  split
  · exact ⟨0, rfl⟩
  · split
    · exact ⟨nthresh - 1, rfl⟩
    · exact bisect_terminates thresh nthresh imodel out nthresh 0 (nthresh - 1)
        (Nat.zero_le _) (by omega)

/-- Closed form of the constructor's digit over a non-decreasing threshold row:
the digit `k` satisfies `k ≤ nthresh`, every threshold below position `k` is
strictly less than `x`, and every threshold from position `k` on is at least
`x`. -/
theorem trainDigit_sorted (thresh : List α) (nthresh imodel : Nat) (x : α)
    (hn : 1 ≤ nthresh)
    (hmono : ∀ j, j < nthresh → ∀ i, i ≤ j →
      thresh.getD (imodel * nthresh + i) 0 ≤ thresh.getD (imodel * nthresh + j) 0) :
    ∃ k, trainDigit thresh nthresh imodel x = some k ∧ k ≤ nthresh ∧
      (∀ j, j < k → thresh.getD (imodel * nthresh + j) 0 < x) ∧
      (∀ j, k ≤ j → j < nthresh → x ≤ thresh.getD (imodel * nthresh + j) 0) := by
  unfold trainDigit
  by_cases h0 : x ≤ thresh.getD (imodel * nthresh) 0
  · refine ⟨0, if_pos h0, Nat.zero_le _, fun j hj => absurd hj (Nat.not_lt_zero _), ?_⟩
    intro j _ hj
    exact le_trans h0 (by simpa using hmono j hj 0 (Nat.zero_le _))
  · rw [if_neg h0]
    have hidx : imodel * nthresh + nthresh - 1 = imodel * nthresh + (nthresh - 1) := by omega
    by_cases h1 : x > thresh.getD (imodel * nthresh + nthresh - 1) 0
    · rw [if_pos h1]
      refine ⟨nthresh, rfl, le_refl _, ?_, fun j h h2 => absurd h2 (not_lt.mpr h)⟩
      intro j hj
      rw [hidx] at h1
      exact lt_of_le_of_lt (hmono (nthresh - 1) (by omega) j (by omega)) h1
    · rw [if_neg h1]
      rw [hidx] at h1
      have hlow : thresh.getD (imodel * nthresh + 0) 0 < x := by simpa using lt_of_not_le h0
      have hne : 0 < nthresh - 1 := by
        by_contra hc
        have hz : nthresh - 1 = 0 := by omega
        rw [hz] at h1
        exact h1 hlow
      obtain ⟨r, hr, a, b, c, d⟩ :=
        bisect_spec thresh nthresh imodel x nthresh 0 (nthresh - 1) hne (by omega) hlow
          (not_lt.mp h1)
      refine ⟨r, hr, by omega, ?_, ?_⟩
      · intro j hj
        exact lt_of_le_of_lt (hmono (r - 1) (by omega) j (by omega)) c
      · intro j hj hjn
        exact le_trans d (hmono j hjn r hj)

/-- C2: over a non-decreasing threshold row of length `ncats - 1` (with
`ncats ≥ 2`) the constructor's quantizer returns a digit `k` for every output
`x`: `k = 0` when `x ≤ t[0]`, `k = ncats - 1` when `x > t[last]`, otherwise `k`
is the smallest index with `x ≤ t[k]`; in every case `k` is the number of
thresholds strictly less than `x`. -/
theorem C2_trainDigit_correct (thresh : List α) (ncats imodel : Nat) (x : α)
    (hc : 2 ≤ ncats)
    (hmono : ∀ j, j < ncats - 1 → ∀ i, i ≤ j →
      thresh.getD (imodel * (ncats - 1) + i) 0 ≤ thresh.getD (imodel * (ncats - 1) + j) 0) :
    ∃ k, trainDigit thresh (ncats - 1) imodel x = some k ∧
      (x ≤ thresh.getD (imodel * (ncats - 1) + 0) 0 → k = 0) ∧
      (x > thresh.getD (imodel * (ncats - 1) + (ncats - 2)) 0 → k = ncats - 1) ∧
      (¬ x ≤ thresh.getD (imodel * (ncats - 1) + 0) 0 →
        ¬ x > thresh.getD (imodel * (ncats - 1) + (ncats - 2)) 0 →
          k < ncats - 1 ∧ x ≤ thresh.getD (imodel * (ncats - 1) + k) 0 ∧
          ∀ j, j < k → ¬ x ≤ thresh.getD (imodel * (ncats - 1) + j) 0) ∧
      k = ((Finset.range (ncats - 1)).filter
            (fun j => thresh.getD (imodel * (ncats - 1) + j) 0 < x)).card := by
  obtain ⟨k, hk, hle, hlt, hge⟩ :=
    trainDigit_sorted thresh (ncats - 1) imodel x (by omega) hmono
  have htop : ¬ x > thresh.getD (imodel * (ncats - 1) + (ncats - 2)) 0 → k < ncats - 1 := by
    intro h
    by_contra hc2
    exact h (hlt (ncats - 2) (by omega))
  refine ⟨k, hk, ?_, ?_, ?_, ?_⟩
  · intro h
    by_contra hk0
    exact absurd (hlt 0 (by omega)) (not_lt.mpr h)
  · intro h
    by_contra hkn
    exact absurd (hge (ncats - 2) (by omega) (by omega)) (not_le.mpr h)
  · intro _ h1
    have hkl := htop h1
    exact ⟨hkl, hge k (le_refl _) hkl, fun j hj => not_le.mpr (hlt j hj)⟩
  · have hset : (Finset.range (ncats - 1)).filter
        (fun j => thresh.getD (imodel * (ncats - 1) + j) 0 < x) = Finset.range k := by
      ext j
      simp only [Finset.mem_filter, Finset.mem_range]
      constructor
      · rintro ⟨hj, hjx⟩
        by_contra hjk
        exact absurd (hge j (by omega) hj) (not_le.mpr hjx)
      · intro hj
        exact ⟨by omega, hlt j hj⟩
    rw [hset, Finset.card_range]

/-- Witness of C2 on the threshold row `[1, 1, 2]` (four categories) at the
output `2`. -/
theorem C2_trainDigit_correct_witness :
    ∃ k, trainDigit [(1 : Int), 1, 2] (4 - 1) 0 2 = some k ∧
      ((2 : Int) ≤ [(1 : Int), 1, 2].getD (0 * (4 - 1) + 0) 0 → k = 0) ∧
      ((2 : Int) > [(1 : Int), 1, 2].getD (0 * (4 - 1) + (4 - 2)) 0 → k = 4 - 1) ∧
      (¬ (2 : Int) ≤ [(1 : Int), 1, 2].getD (0 * (4 - 1) + 0) 0 →
        ¬ (2 : Int) > [(1 : Int), 1, 2].getD (0 * (4 - 1) + (4 - 2)) 0 →
          k < 4 - 1 ∧ (2 : Int) ≤ [(1 : Int), 1, 2].getD (0 * (4 - 1) + k) 0 ∧
          ∀ j, j < k → ¬ (2 : Int) ≤ [(1 : Int), 1, 2].getD (0 * (4 - 1) + j) 0) ∧
      k = ((Finset.range (4 - 1)).filter
            (fun j => [(1 : Int), 1, 2].getD (0 * (4 - 1) + j) 0 < 2)).card :=
  C2_trainDigit_correct [(1 : Int), 1, 2] 4 0 2 (by decide) (by decide)

/-- C3: for an output strictly above all thresholds of a predictor, the
constructor's quantizer yields digit `ncats - 1` and the quantizer of
`predict` yields digit `ncats - 2`, for every `ncats ≥ 2` and every threshold
table. -/
theorem C3_top_digit_differs (thresh : List α) (ncats imodel : Nat) (x : α)
    (hc : 2 ≤ ncats)
    (habove : ∀ j, j < ncats - 1 → thresh.getD (imodel * (ncats - 1) + j) 0 < x) :
    trainDigit thresh (ncats - 1) imodel x = some (ncats - 1) ∧
    predictDigit thresh (ncats - 1) imodel x = some (ncats - 2) := by
  have h0 : ¬ x ≤ thresh.getD (imodel * (ncats - 1)) 0 := by
    have := habove 0 (by omega)
    simpa using this
  have hidx : imodel * (ncats - 1) + (ncats - 1) - 1 = imodel * (ncats - 1) + (ncats - 2) := by
    omega
  have h1 : x > thresh.getD (imodel * (ncats - 1) + (ncats - 1) - 1) 0 := by
    rw [hidx]; exact habove (ncats - 2) (by omega)
  constructor
  · unfold trainDigit
    rw [if_neg h0, if_pos h1]
  · unfold predictDigit
    rw [if_neg h0, if_pos h1]
    rfl

/-- Witness of C3 on the threshold row `[1, 1, 2]` (four categories) at the
output `3`. -/
theorem C3_top_digit_differs_witness :
    trainDigit [(1 : Int), 1, 2] (4 - 1) 0 3 = some (4 - 1) ∧
    predictDigit [(1 : Int), 1, 2] (4 - 1) 0 3 = some (4 - 2) :=
  C3_top_digit_differs [(1 : Int), 1, 2] 4 0 3 (by decide) (by decide)

end QuantizeLemmas

end AfterFac

namespace AfterFac

/-! ## Region ids -/

/-- Closed form of the accumulation loop: after `n` models `ibin` is the
mixed-radix sum of the digits and `index` is `ncats ^ n`. -/
theorem binLoop_eq (digit : Nat → Nat) (ncats n : Nat) :
    binLoop digit ncats n = (∑ m in Finset.range n, digit m * ncats ^ m, ncats ^ n) := by
  induction n with
  | zero => rfl
  | succ n ih =>
    unfold binLoop at ih ⊢
    rw [List.range_succ, List.foldl_append, ih]
    simp [Finset.sum_range_succ, pow_succ]

/-- A mixed-radix sum of `n` digits below `ncats` is below `ncats ^ n`. -/
theorem radixSum_lt (digit : Nat → Nat) (ncats : Nat) :
    ∀ n, (∀ m, m < n → digit m < ncats) →
      ∑ m in Finset.range n, digit m * ncats ^ m < ncats ^ n := by
  intro n
  induction n with
  | zero => intro _; simp
  | succ n ih =>
    intro h
    rw [Finset.sum_range_succ, pow_succ]
    have h1 := ih (fun m hm => h m (by omega))
    have h2 : digit n + 1 ≤ ncats := h n (by omega)
    calc ∑ m in Finset.range n, digit m * ncats ^ m + digit n * ncats ^ n
        < ncats ^ n + digit n * ncats ^ n := by omega
      _ = (digit n + 1) * ncats ^ n := by ring
      _ ≤ ncats * ncats ^ n := Nat.mul_le_mul_right _ h2
      _ = ncats ^ n * ncats := by ring

end AfterFac

namespace AfterFac

/-! ## The bin count -/

/-- A value in the range of a non-negative `int` is unchanged by wrap-around. -/
theorem wrapInt_of_fits (z : Int) (h0 : 0 ≤ z) (h1 : z ≤ 2147483647) : wrapInt z = z := by
  unfold wrapInt
  omega

/-- If a power fits a 32-bit `int`, so does the previous power. -/
theorem pow_fits_pred (ncats k : Nat) (h : ncats ^ (k + 1) ≤ 2147483647) :
    ncats ^ k ≤ 2147483647 := by
  rcases Nat.eq_zero_or_pos ncats with h0 | h0
  · subst h0
    have : (0:Nat) ^ k ≤ 1 := by
      rcases Nat.eq_zero_or_pos k with hk0 | hk0
      · subst hk0; exact le_of_eq (pow_zero 0)
      · rw [zero_pow (by omega)]; exact Nat.zero_le 1
    exact le_trans this (by norm_num)
  · exact le_trans (Nat.pow_le_pow_right h0 (Nat.le_succ k)) h

/-- The multiplication loop computes the exact power as long as the power fits
a 32-bit `int`. -/
theorem nbinsLoop_fold (ncats : Nat) :
    ∀ k : Nat, ncats ^ k ≤ 2147483647 →
      (List.range k).foldl (fun (nbins : Int) _ => wrapInt (nbins * (ncats : Int))) 1
        = ((ncats ^ k : Nat) : Int) := by
  intro k
  induction k with
  | zero => intro _; rfl
  | succ k ih =>
    intro h
    rw [List.range_succ, List.foldl_append, ih (pow_fits_pred ncats k h),
      List.foldl_cons, List.foldl_nil]
    have hcast : ((ncats ^ k : Nat) : Int) * (ncats : Int) = ((ncats ^ (k + 1) : Nat) : Int) := by
      rw [pow_succ, Nat.cast_mul]
    rw [hcast]
    have h2 : ((ncats ^ (k + 1) : Nat) : Int) ≤ 2147483647 := by exact_mod_cast h
    exact wrapInt_of_fits _ (Int.ofNat_nonneg _) h2

/-- Counterexample to C6 as stated: with 2 categories and 31 models (both
valid) the `int` loop leaves `nbins = -2147483648`, which is not `2 ^ 31`. -/
theorem C6_nbins_overflow :
    nbinsLoop 31 2 = -2147483648 ∧ nbinsLoop 31 2 ≠ ((2 ^ 31 : Nat) : Int) := by
  have h : nbinsLoop 31 2 = -2147483648 := by
    unfold nbinsLoop
    have h30 := nbinsLoop_fold 2 30 (by norm_num)
    have e : (31 : Int).toNat = 30 + 1 := rfl
    rw [e, List.range_succ, List.foldl_append]
    rw [show ((2 : Nat) : Int) = 2 from rfl] at h30
    rw [h30, List.foldl_cons, List.foldl_nil]
    unfold wrapInt
    norm_num
  exact ⟨h, by rw [h]; norm_num⟩

/-- C6 (amended): whenever `ncats ^ nmodels` fits a 32-bit `int` (is at most
2147483647), the bin count `nbins` computed by the constructor's repeated
multiplication equals `ncats ^ nmodels` exactly. -/
theorem C6_nbins_exact (nmodels ncats : Nat) (hfit : ncats ^ nmodels ≤ 2147483647) :
    nbinsLoop (nmodels : Int) (ncats : Int) = ((ncats ^ nmodels : Nat) : Int) := by
  unfold nbinsLoop
  rw [Int.toNat_ofNat]
  exact nbinsLoop_fold ncats nmodels hfit

/-- Witness of the amended C6 with 4 categories and 3 models: 64 bins. -/
theorem C6_nbins_exact_witness :
    (4 : Nat) ^ 3 ≤ 2147483647 ∧
      nbinsLoop ((3 : Nat) : Int) ((4 : Nat) : Int) = (((4 : Nat) ^ 3 : Nat) : Int) :=
  ⟨by norm_num, C6_nbins_exact 3 4 (by norm_num)⟩

end AfterFac

namespace AfterFac

/-! ## Fractile thresholds -/

/-- The subscript `(int)(frac*(ncases-1))` is the integer quotient
`(i+1)*(ncases-1) / ncats`. -/
theorem fracIndex_eq (i ncats ncases : Nat) (hn : 1 ≤ ncases) :
    fracIndex i ncats ncases = (((i + 1) * (ncases - 1) / ncats : Nat) : Int) := by
  unfold fracIndex truncInt
  have hc : (((ncases : Int) - 1 : Int) : ℚ) = ((ncases - 1 : Nat) : ℚ) := by
    rw [Nat.cast_sub hn]
    push_cast
    ring
  have hq : ((i + 1 : Nat) : ℚ) / ((ncats : Nat) : ℚ) * (((ncases : Int) - 1 : Int) : ℚ)
      = (((i + 1) * (ncases - 1) : Nat) : ℚ) / ((ncats : Nat) : ℚ) := by
    rw [hc, Nat.cast_mul]
    ring
  simp only
  rw [hq, if_pos (by positivity)]
  exact Rat.floor_natCast_div_natCast _ _

section ThreshLemmas

variable {α : Type} [LinearOrderedRing α]

/-- The sort leaves the work vector in non-decreasing order. -/
theorem qsortd_sorted (work : List α) : List.Sorted (fun a b => a ≤ b) (qsortd work) :=
  List.sorted_insertionSort (fun a b => a ≤ b) work

/-- The sort permutes the work vector. -/
theorem qsortd_perm (work : List α) : (qsortd work).Perm work :=
  List.perm_insertionSort (fun a b => a ≤ b) work

/-- The sort keeps the length of the work vector. -/
theorem qsortd_length (work : List α) : (qsortd work).length = work.length :=
  List.length_insertionSort (fun a b => a ≤ b) work

/-- Reading a sorted array at two in-range subscripts `a ≤ b` gives values in
the same order. -/
theorem sorted_getD_le (l : List α) (hs : List.Sorted (fun a b => a ≤ b) l) (a b : Nat)
    (hab : a ≤ b) (hb : b < l.length) : l.getD a 0 ≤ l.getD b 0 := by
  rw [List.getD_eq_getElem l 0 (lt_of_le_of_lt hab hb), List.getD_eq_getElem l 0 hb]
  have h := hs.rel_get_of_le (a := ⟨a, lt_of_le_of_lt hab hb⟩) (b := ⟨b, hb⟩) hab
  simpa using h

end ThreshLemmas

section WinnerLemmas

variable {α : Type} [LinearOrderedRing α]

/-- Invariant of the best-model loop after at least one pass: `best` is the
error of model `k`, no model seen so far has a smaller error, and every model
before `k` has a strictly larger one. -/
theorem bestLoop_spec (outptr : List α) (target : α) :
    ∀ n, (bestLoop outptr target (n + 1)).2 < n + 1 ∧
      (bestLoop outptr target (n + 1)).1
        = |outptr.getD (bestLoop outptr target (n + 1)).2 0 - target| ∧
      (∀ m, m < n + 1 → (bestLoop outptr target (n + 1)).1 ≤ |outptr.getD m 0 - target|) ∧
      (∀ m, m < (bestLoop outptr target (n + 1)).2 →
        (bestLoop outptr target (n + 1)).1 < |outptr.getD m 0 - target|) := by
  intro n
  induction n with
  | zero =>
    have h : bestLoop outptr target 1 = (|outptr.getD 0 0 - target|, 0) := by
      unfold bestLoop
      rw [show List.range 1 = [0] from rfl, List.foldl_cons, List.foldl_nil]
      exact if_pos (Or.inl rfl)
    rw [h]
    refine ⟨Nat.zero_lt_one, rfl, ?_, ?_⟩
    · intro m hm
      have : m = 0 := by omega
      subst this
      exact le_refl _
    · intro m hm
      exact absurd hm (Nat.not_lt_zero _)
  | succ n ih =>
    obtain ⟨h1, h2, h3, h4⟩ := ih
    have hstep : bestLoop outptr target (n + 1 + 1)
        = if |outptr.getD (n + 1) 0 - target| < (bestLoop outptr target (n + 1)).1
          then (|outptr.getD (n + 1) 0 - target|, n + 1)
          else bestLoop outptr target (n + 1) := by
      unfold bestLoop
      rw [List.range_succ, List.foldl_append, List.foldl_cons, List.foldl_nil]
      simp
    rw [hstep]
    by_cases hlt : |outptr.getD (n + 1) 0 - target| < (bestLoop outptr target (n + 1)).1
    · rw [if_pos hlt]
      refine ⟨Nat.lt_succ_self _, rfl, ?_, ?_⟩
      · intro m hm
        rcases Nat.lt_succ_iff_lt_or_eq.mp hm with hm1 | hm1
        · exact le_trans (le_of_lt hlt) (h3 m hm1)
        · subst hm1; exact le_refl _
      · intro m hm
        exact lt_of_lt_of_le hlt (h3 m hm)
    · rw [if_neg hlt]
      refine ⟨by omega, h2, ?_, h4⟩
      intro m hm
      rcases Nat.lt_succ_iff_lt_or_eq.mp hm with hm1 | hm1
      · exact h3 m hm1
      · subst hm1; exact not_lt.mp hlt

/-- Invariant of the winner loop after `n` models: `ibest` bounds every count
seen so far, and either nothing positive was seen (`k = 0`, `ibest = 0`) or `k`
is the first model that holds the count `ibest`. -/
theorem winnerLoop_spec (bins : List Nat) (nmodels ibin : Nat) :
    ∀ n, (∀ m, m < n →
        bins.getD (ibin * nmodels + m) 0
          ≤ ((List.range n).foldl
              (fun (s : Nat × Nat) imodel =>
                if bins.getD (ibin * nmodels + imodel) 0 > s.2
                then (imodel, bins.getD (ibin * nmodels + imodel) 0) else s) (0, 0)).2) ∧
      ((((List.range n).foldl
              (fun (s : Nat × Nat) imodel =>
                if bins.getD (ibin * nmodels + imodel) 0 > s.2
                then (imodel, bins.getD (ibin * nmodels + imodel) 0) else s) (0, 0)) = (0, 0)) ∨
       (∃ k, k < n ∧
          ((List.range n).foldl
              (fun (s : Nat × Nat) imodel =>
                if bins.getD (ibin * nmodels + imodel) 0 > s.2
                then (imodel, bins.getD (ibin * nmodels + imodel) 0) else s) (0, 0))
            = (k, bins.getD (ibin * nmodels + k) 0) ∧
          ∀ m, m < k → bins.getD (ibin * nmodels + m) 0 < bins.getD (ibin * nmodels + k) 0)) := by
  intro n
  induction n with
  | zero =>
    exact ⟨fun m hm => absurd hm (Nat.not_lt_zero _), Or.inl rfl⟩
  | succ n ih =>
    rw [List.range_succ, List.foldl_append, List.foldl_cons, List.foldl_nil]
    generalize (List.range n).foldl
        (fun (s : Nat × Nat) imodel =>
          if bins.getD (ibin * nmodels + imodel) 0 > s.2
          then (imodel, bins.getD (ibin * nmodels + imodel) 0) else s) (0, 0) = s at ih ⊢
    obtain ⟨hb, hk⟩ := ih
    by_cases hgt : bins.getD (ibin * nmodels + n) 0 > s.2
    · rw [if_pos hgt]
      refine ⟨?_, Or.inr ⟨n, Nat.lt_succ_self _, rfl, ?_⟩⟩
      · intro m hm
        rcases Nat.lt_succ_iff_lt_or_eq.mp hm with hm1 | hm1
        · exact le_trans (hb m hm1) (le_of_lt hgt)
        · subst hm1; exact le_refl _
      · intro m hm
        exact lt_of_le_of_lt (hb m hm) hgt
    · rw [if_neg hgt]
      refine ⟨?_, ?_⟩
      · intro m hm
        rcases Nat.lt_succ_iff_lt_or_eq.mp hm with hm1 | hm1
        · exact hb m hm1
        · subst hm1; exact not_lt.mp hgt
      · rcases hk with h0 | ⟨k, hkn, hs, hlow⟩
        · exact Or.inl h0
        · exact Or.inr ⟨k, by omega, hs, hlow⟩

/-- The winner of a bin is the first model that holds the largest count of
the bin. -/
theorem winnerLoop_first_max (bins : List Nat) (nmodels ibin : Nat) (hn : 1 ≤ nmodels) :
    (winnerLoop bins nmodels ibin).1 < nmodels ∧
    (∀ m, m < nmodels →
      bins.getD (ibin * nmodels + m) 0
        ≤ bins.getD (ibin * nmodels + (winnerLoop bins nmodels ibin).1) 0) ∧
    (∀ m, m < (winnerLoop bins nmodels ibin).1 →
      bins.getD (ibin * nmodels + m) 0
        < bins.getD (ibin * nmodels + (winnerLoop bins nmodels ibin).1) 0) := by
  obtain ⟨hb, hk⟩ := winnerLoop_spec bins nmodels ibin nmodels
  unfold winnerLoop
  rcases hk with h0 | ⟨k, hkn, hs, hlow⟩
  · rw [h0] at hb ⊢
    refine ⟨hn, ?_, fun m hm => absurd hm (Nat.not_lt_zero _)⟩
    intro m hm
    exact le_trans (hb m hm) (Nat.zero_le _)
  · rw [hs] at hb ⊢
    exact ⟨hkn, hb, hlow⟩

/-- Entry `ibin` of the winner table. -/
theorem getD_computeWinners (bins : List Nat) (nbins nmodels ibin : Nat) (h : ibin < nbins) :
    (computeWinners bins nbins nmodels).getD ibin 0 = (winnerLoop bins nmodels ibin).1 := by
  unfold computeWinners
  rw [List.getD_eq_getElem _ _ (by rw [List.length_map, List.length_range]; exact h)]
  simp

/-- C10: after construction, for every region id `ibin` of the winner table
the stored winner is the lowest model index whose win count in that region
equals the region's maximum win count (no model has a larger count, every
earlier model has a strictly smaller one); in particular a region whose counts
are all zero has winner 0. -/
theorem C10_winner_first_maximum (models : Nat → List α → α) (n ninputs : Nat)
    (tset : List α) (nmods ncat ibin : Nat)
    (hm : 1 ≤ nmods) (hb : ibin < (nbinsLoop nmods ncat).toNat) :
    (construct models n ninputs tset nmods ncat).winners.getD ibin 0 < nmods ∧
    (∀ m, m < nmods →
      (trainedBins models n ninputs tset nmods ncat).getD (ibin * nmods + m) 0
        ≤ (trainedBins models n ninputs tset nmods ncat).getD
            (ibin * nmods + (construct models n ninputs tset nmods ncat).winners.getD ibin 0) 0) ∧
    (∀ m, m < (construct models n ninputs tset nmods ncat).winners.getD ibin 0 →
      (trainedBins models n ninputs tset nmods ncat).getD (ibin * nmods + m) 0
        < (trainedBins models n ninputs tset nmods ncat).getD
            (ibin * nmods + (construct models n ninputs tset nmods ncat).winners.getD ibin 0) 0) ∧
    ((∀ m, m < nmods →
        (trainedBins models n ninputs tset nmods ncat).getD (ibin * nmods + m) 0 = 0) →
      (construct models n ninputs tset nmods ncat).winners.getD ibin 0 = 0) := by
  have hw : (construct models n ninputs tset nmods ncat).winners.getD ibin 0
      = (winnerLoop (trainedBins models n ninputs tset nmods ncat) nmods ibin).1 :=
    getD_computeWinners _ _ nmods ibin hb
  rw [hw]
  obtain ⟨h1, h2, h3⟩ :=
    winnerLoop_first_max (trainedBins models n ninputs tset nmods ncat) nmods ibin hm
  refine ⟨h1, h2, h3, ?_⟩
  intro hz
  by_contra hne
  have hpos : 0 < (winnerLoop (trainedBins models n ninputs tset nmods ncat) nmods ibin).1 := by
    omega
  have := h3 0 hpos
  rw [hz _ h1] at this
  exact Nat.not_lt_zero _ this

/-- Witness of C10 in the example oracle (2 models, 2 categories): bin 3. -/
theorem C10_winner_first_maximum_witness :
    (1 ≤ 2 ∧ 3 < (nbinsLoop ((2 : Nat) : Int) ((2 : Nat) : Int)).toNat) ∧
    (construct exampleModels 4 2 exampleTset 2 2).winners.getD 3 0 < 2 ∧
    ((∀ m, m < 2 →
        (trainedBins exampleModels 4 2 exampleTset 2 2).getD (3 * 2 + m) 0 = 0) →
      (construct exampleModels 4 2 exampleTset 2 2).winners.getD 3 0 = 0) :=
  ⟨by decide,
   (C10_winner_first_maximum exampleModels 4 2 exampleTset 2 2 3 (by decide) (by decide)).1,
   (C10_winner_first_maximum exampleModels 4 2 exampleTset 2 2 3 (by decide) (by decide)).2.2.2⟩

end WinnerLemmas

/-! ## The loop of `predict` -/

section PredictLemmas

variable {α : Type} [LinearOrderedRing α]

/-- The variables `(ibin, index)` of the loop of `predict` evolve exactly as
in `binLoop`, with the digits that `predictDigit` computes for the models'
outputs on `input`. -/
theorem predictLoop_fold (models : Nat → List α → α) (af : AfterFact α) (input : List α) :
    ∀ n,
      (((List.range n).foldl
          (fun (s : List α × Nat × Nat) imodel =>
            (s.1.set imodel (models imodel input),
             s.2.1 + (predictDigit af.thresh (af.ncats - 1) imodel
                        (models imodel input)).getD 0 * s.2.2,
             s.2.2 * af.ncats))
          (af.outwork, 0, 1)).2)
        = binLoop
            (fun imodel =>
              (predictDigit af.thresh (af.ncats - 1) imodel (models imodel input)).getD 0)
            af.ncats n := by
  intro n
  induction n with
  | zero => rfl
  | succ n ih =>
    unfold binLoop at ih ⊢
    rw [List.range_succ, List.foldl_append, List.foldl_append, List.foldl_cons, List.foldl_nil,
      List.foldl_cons, List.foldl_nil, ← ih]

/-- The bin looked up by `predict` is the `binLoop` accumulation of the digits
of `predictDigit`. -/
theorem predictBin_eq_binLoop (models : Nat → List α → α) (af : AfterFact α)
    (input : List α) :
    predictBin models af input
      = (binLoop
          (fun imodel =>
            (predictDigit af.thresh (af.ncats - 1) imodel (models imodel input)).getD 0)
          af.ncats af.nmodels).1 := by
  unfold predictBin predictLoop
  rw [← predictLoop_fold models af input af.nmodels]

/-- The bisection never returns an index above the `khigh` it was entered
with. -/
theorem bisect_le (thresh : List α) (nthresh imodel : Nat) (x : α) :
    ∀ (fuel klow khigh r : Nat), klow ≤ khigh →
      bisect thresh nthresh imodel x fuel klow khigh = some r → r ≤ khigh := by
  intro fuel
  induction fuel with
  | zero => intro klow khigh r _ h; simp [bisect] at h
  | succ fuel ih =>
    intro klow khigh r hle h
    unfold bisect at h
    simp only at h
    by_cases hk : (klow + khigh) / 2 = klow
    · rw [if_pos hk] at h
      exact le_of_eq (Option.some.inj h).symm
    · rw [if_neg hk] at h
      have h1 : klow < (klow + khigh) / 2 := by omega
      have h2 : (klow + khigh) / 2 < khigh := by omega
      by_cases hx : x ≤ thresh.getD (imodel * nthresh + (klow + khigh) / 2) 0
      · rw [if_pos hx] at h
        exact le_trans (ih klow _ r (le_of_lt h1) h) (le_of_lt h2)
      · rw [if_neg hx] at h
        exact ih _ khigh r (le_of_lt h2) h

/-- The digit used by `predict` is at most `nthresh - 1`. -/
theorem predictDigit_getD_le (thresh : List α) (nthresh imodel : Nat) (out : α) :
    (predictDigit thresh nthresh imodel out).getD 0 ≤ nthresh - 1 := by
  unfold predictDigit
  split
  · exact Nat.zero_le _
  · split
    · exact le_refl _
    · cases hb : bisect thresh nthresh imodel out nthresh 0 (nthresh - 1) with
      | none => exact Nat.zero_le _
      | some r =>
        exact bisect_le thresh nthresh imodel out nthresh 0 (nthresh - 1) r (Nat.zero_le _) hb

/-- The digit used by the constructor is at most `nthresh`. -/
theorem trainDigit_getD_le (thresh : List α) (nthresh imodel : Nat) (x : α) :
    (trainDigit thresh nthresh imodel x).getD 0 ≤ nthresh := by
  unfold trainDigit
  split
  · exact Nat.zero_le _
  · split
    · exact le_refl _
    · cases hb : bisect thresh nthresh imodel x nthresh 0 (nthresh - 1) with
      | none => exact Nat.zero_le _
      | some r =>
        have hr := bisect_le thresh nthresh imodel x nthresh 0 (nthresh - 1) r (Nat.zero_le _) hb
        exact le_trans hr (Nat.sub_le _ _)

/-- With at least two categories the bin looked up by `predict` is below
`ncats ^ nmodels`. -/
theorem predictBin_lt (models : Nat → List α → α) (af : AfterFact α) (input : List α)
    (hc : 2 ≤ af.ncats) : predictBin models af input < af.ncats ^ af.nmodels := by
  rw [predictBin_eq_binLoop, binLoop_eq]
  apply radixSum_lt
  intro m _
  have := predictDigit_getD_le af.thresh (af.ncats - 1) m (models m input)
  omega

/-- With at least one category the bin of a training case is below
`ncats ^ nmodels`. -/
theorem trainBin_lt (thresh : List α) (ncats nmodels : Nat) (outptr : List α)
    (hc : 1 ≤ ncats) : trainBin thresh ncats nmodels outptr < ncats ^ nmodels := by
  unfold trainBin
  rw [binLoop_eq]
  apply radixSum_lt
  intro m _
  have := trainDigit_getD_le thresh (ncats - 1) m (outptr.getD m 0)
  omega

/-- The vector `outwork` during the loop of `predict`: its length never
changes, and after `n` passes its first `n` entries hold the outputs of the
models on `input`. -/
theorem predictLoop_outwork (models : Nat → List α → α) (af : AfterFact α) (input : List α) :
    ∀ n,
      (((List.range n).foldl
          (fun (s : List α × Nat × Nat) imodel =>
            (s.1.set imodel (models imodel input),
             s.2.1 + (predictDigit af.thresh (af.ncats - 1) imodel
                        (models imodel input)).getD 0 * s.2.2,
             s.2.2 * af.ncats))
          (af.outwork, 0, 1)).1).length = af.outwork.length ∧
      ∀ m, m < n → m < af.outwork.length →
        (((List.range n).foldl
          (fun (s : List α × Nat × Nat) imodel =>
            (s.1.set imodel (models imodel input),
             s.2.1 + (predictDigit af.thresh (af.ncats - 1) imodel
                        (models imodel input)).getD 0 * s.2.2,
             s.2.2 * af.ncats))
          (af.outwork, 0, 1)).1).getD m 0 = models m input := by
  intro n
  induction n with
  | zero => exact ⟨rfl, fun m hm _ => absurd hm (Nat.not_lt_zero _)⟩
  | succ n ih =>
    rw [List.range_succ, List.foldl_append, List.foldl_cons, List.foldl_nil]
    generalize (List.range n).foldl
          (fun (s : List α × Nat × Nat) imodel =>
            (s.1.set imodel (models imodel input),
             s.2.1 + (predictDigit af.thresh (af.ncats - 1) imodel
                        (models imodel input)).getD 0 * s.2.2,
             s.2.2 * af.ncats))
          (af.outwork, 0, 1) = s at ih ⊢
    obtain ⟨hlen, hget⟩ := ih
    refine ⟨by rw [List.length_set]; exact hlen, ?_⟩
    intro m hm hml
    rw [List.getD_eq_getElem?_getD]
    by_cases hmn : n = m
    · subst hmn
      rw [List.getElem?_set_self (by rw [hlen]; exact hml)]
      rfl
    · rw [List.getElem?_set_ne hmn, ← List.getD_eq_getElem?_getD]
      exact hget m (by omega) hml

/-- After `predict`, entry `m` of `outwork` is the output of model `m` on
`input`, for every model index within the vector. -/
theorem predictLoop_getD (models : Nat → List α → α) (af : AfterFact α) (input : List α)
    (m : Nat) (hm : m < af.nmodels) (hl : m < af.outwork.length) :
    (predictLoop models af input).1.getD m 0 = models m input :=
  (predictLoop_outwork models af input af.nmodels).2 m hm hl

/-- Every entry of the constructed winner table (and the default read outside
it) is a model index. -/
theorem winners_getD_lt (bins : List Nat) (nbins nmodels ibin : Nat) (hn : 1 ≤ nmodels) :
    (computeWinners bins nbins nmodels).getD ibin 0 < nmodels := by
  by_cases h : ibin < nbins
  · rw [getD_computeWinners bins nbins nmodels ibin h]
    exact (winnerLoop_first_max bins nmodels ibin hn).1
  · rw [List.getD_eq_default _ _ (by
      unfold computeWinners
      rw [List.length_map, List.length_range]
      omega)]
    exact hn

/-- The bin count of a constructed oracle whose `ncat ^ nmods` fits an `int`. -/
theorem nbins_toNat (nmods ncat : Nat) (hfit : ncat ^ nmods ≤ 2147483647) :
    (nbinsLoop (nmods : Int) (ncat : Int)).toNat = ncat ^ nmods := by
  unfold nbinsLoop
  rw [Int.toNat_ofNat, nbinsLoop_fold ncat nmods hfit, Int.toNat_ofNat]

/-- C11: for an oracle constructed with at least two categories, at least one
model and a representable bin count, `predict` looks up a bin `ibin` inside the
winner table, the stored winner `winners[ibin]` is a model index, and the
value returned is exactly the output of that winning model on this same
input; so the result is always the output of one of the models. -/
theorem C11_predict_returns_winner_output (models : Nat → List α → α) (n ninputs : Nat)
    (tset : List α) (nmods ncat : Nat) (input : List α)
    (hc : 2 ≤ ncat) (hm : 1 ≤ nmods) (hfit : ncat ^ nmods ≤ 2147483647) :
    predictBin models (construct models n ninputs tset nmods ncat) input
      < (construct models n ninputs tset nmods ncat).winners.length ∧
    (construct models n ninputs tset nmods ncat).winners.getD
      (predictBin models (construct models n ninputs tset nmods ncat) input) 0 < nmods ∧
    (predict models (construct models n ninputs tset nmods ncat) input).2
      = models
          ((construct models n ninputs tset nmods ncat).winners.getD
            (predictBin models (construct models n ninputs tset nmods ncat) input) 0)
          input := by
  have hw := winners_getD_lt (trainedBins models n ninputs tset nmods ncat)
    (nbinsLoop nmods ncat).toNat nmods
    (predictBin models (construct models n ninputs tset nmods ncat) input) hm
  refine ⟨?_, hw, ?_⟩
  · show _ < (computeWinners _ _ _).length
    unfold computeWinners
    rw [List.length_map, List.length_range, nbins_toNat nmods ncat hfit]
    exact predictBin_lt models (construct models n ninputs tset nmods ncat) input hc
  · exact predictLoop_getD models (construct models n ninputs tset nmods ncat) input _ hw
      (by show _ < (List.replicate nmods (0 : α)).length; rw [List.length_replicate]; exact hw)

/-- Witness of C11 in the example oracle on the input `(4, 8)`. -/
theorem C11_predict_returns_winner_output_witness :
    (2 ≤ 2 ∧ 1 ≤ 2 ∧ 2 ^ 2 ≤ 2147483647) ∧
    (predict exampleModels (construct exampleModels 4 2 exampleTset 2 2) [4, 8]).2
      = exampleModels
          ((construct exampleModels 4 2 exampleTset 2 2).winners.getD
            (predictBin exampleModels (construct exampleModels 4 2 exampleTset 2 2) [4, 8]) 0)
          [4, 8] :=
  ⟨by decide,
   (C11_predict_returns_winner_output exampleModels 4 2 exampleTset 2 2 [4, 8]
      (by decide) (by decide) (by decide)).2.2⟩

end PredictLemmas

/-! ## The example oracle -/

/-- The subscripts used for 2 categories and 4 cases. -/
theorem fracIndex_example (i : Nat) : fracIndex i 2 4 = (((i + 1) * (4 - 1) / 2 : Nat) : Int) :=
  fracIndex_eq i 2 4 (by decide)

/-- The threshold table of the example oracle (2 models, 2 categories). -/
theorem example_thresh :
    computeThresh (computeOutputs exampleModels 4 2 2 exampleTset) 4 2 2 = [2, 6] := by
  unfold computeThresh
  simp only [fracIndex_example, Int.toNat_ofNat]
  decide

/-- C1 fails on the code: on the one-threshold row `[0]` (2 categories) the
output `1` gets digit 1 from the constructor and digit 0 from `predict`; in the
example oracle the training case 3 is tallied in bin 3, while `predict` on that
case's input looks up bin 0. -/
theorem C1_train_predict_digits_differ :
    trainDigit [(0 : Int)] 1 0 1 = some 1 ∧ predictDigit [(0 : Int)] 1 0 1 = some 0 ∧
    trainBin (construct exampleModels 4 2 exampleTset 2 2).thresh 2 2
        ((computeOutputs exampleModels 4 2 2 exampleTset).drop (3 * 2)) = 3 ∧
    predictBin exampleModels (construct exampleModels 4 2 exampleTset 2 2)
        (exampleTset.drop (3 * (2 + 1))) = 0 := by
  refine ⟨by decide, by decide, ?_, ?_⟩
  · show trainBin (computeThresh (computeOutputs exampleModels 4 2 2 exampleTset) 4 2 2) 2 2 _ = 3
    rw [example_thresh]
    decide
  · unfold predictBin predictLoop construct
    simp only [example_thresh]
    decide

/-! ## Error reporting and the test harness -/

section HarnessLemmas

variable {α Arg : Type} [LinearOrderedRing α]

/-- C18: the harness exits with status 1 exactly when the argument count is
not 6 or the parsed values satisfy `nsamples ≤ 0`, `nbins ≤ 1`, `nmodels ≤ 0`,
`ntries ≤ 0` or `std < 0`; every other argument set passes the validation with
its parsed values. -/
theorem C18_harness_argument_validation (atoi : Arg → Int) (atof : Arg → α)
    (argc : Int) (argv : Nat → Arg) :
    (processArgs atoi atof argc argv = ArgResult.exited 1 ↔
      (argc ≠ 6 ∨ atoi (argv 1) ≤ 0 ∨ atoi (argv 2) ≤ 1 ∨ atoi (argv 3) ≤ 0 ∨
        atoi (argv 4) ≤ 0 ∨ atof (argv 5) < 0)) ∧
    (¬ (argc ≠ 6 ∨ atoi (argv 1) ≤ 0 ∨ atoi (argv 2) ≤ 1 ∨ atoi (argv 3) ≤ 0 ∨
        atoi (argv 4) ≤ 0 ∨ atof (argv 5) < 0) →
      processArgs atoi atof argc argv
        = ArgResult.accepted (atoi (argv 1)) (atoi (argv 2)) (atoi (argv 3)) (atoi (argv 4))
            (atof (argv 5))) := by
  have hacc : ¬ (argc ≠ 6 ∨ atoi (argv 1) ≤ 0 ∨ atoi (argv 2) ≤ 1 ∨ atoi (argv 3) ≤ 0 ∨
        atoi (argv 4) ≤ 0 ∨ atof (argv 5) < 0) →
      processArgs atoi atof argc argv
        = ArgResult.accepted (atoi (argv 1)) (atoi (argv 2)) (atoi (argv 3)) (atoi (argv 4))
            (atof (argv 5)) := by
    intro h
    unfold processArgs
    rw [if_neg (fun hc => h (Or.inl hc))]
    simp only
    rw [if_neg (fun hc => h (Or.inr hc))]
  refine ⟨⟨?_, ?_⟩, hacc⟩
  · intro hex
    by_contra hno
    rw [hacc hno] at hex
    cases hex
  · intro h
    unfold processArgs
    by_cases hargc : argc ≠ 6
    · rw [if_pos hargc]
    · rw [if_neg hargc]
      simp only
      rw [if_pos]
      rcases h with h | h
      · exact absurd h hargc
      · exact h

/-- Witness of C18: the arguments `500 4 3 3 1` pass the validation with their
parsed values. -/
theorem C18_harness_argument_validation_witness :
    processArgs (fun a : Int => a) (fun a : Int => a) 6
        (fun i => [0, 500, 4, 3, 3, 1].getD i 0)
      = ArgResult.accepted 500 4 3 3 (1 : Int) :=
  (C18_harness_argument_validation (fun a : Int => a) (fun a : Int => a) 6
    (fun i => [0, 500, 4, 3, 3, 1].getD i 0)).2 (by decide)

end HarnessLemmas

/-! ## Agreement of the two quantizers below the top band -/

section AgreementLemmas

variable {α : Type} [LinearOrderedRing α]

/-- Unless the output is strictly above the last threshold, `predict` and the
constructor compute the same digit. -/
theorem predictDigit_eq_trainDigit (thresh : List α) (nthresh imodel : Nat) (x : α)
    (h : ¬ x > thresh.getD (imodel * nthresh + nthresh - 1) 0) :
    predictDigit thresh nthresh imodel x = trainDigit thresh nthresh imodel x := by
  unfold predictDigit trainDigit
  rw [if_neg h, if_neg h]

/-- C20: for every threshold row of length `ncats - 1 ≥ 1` (non-decreasing or
not) and every output `x ≤ thresholds[last]`, the constructor's quantizer and
the quantizer of `predict` return the same digit; the two code paths can differ
only for an output strictly above the last threshold. -/
theorem C20_quantizers_agree_below_top (thresh : List α) (ncats imodel : Nat) (x : α)
    (hc : 2 ≤ ncats) :
    (x ≤ thresh.getD (imodel * (ncats - 1) + (ncats - 2)) 0 →
      ∃ k, trainDigit thresh (ncats - 1) imodel x = some k ∧
        predictDigit thresh (ncats - 1) imodel x = some k) ∧
    (trainDigit thresh (ncats - 1) imodel x ≠ predictDigit thresh (ncats - 1) imodel x →
      x > thresh.getD (imodel * (ncats - 1) + (ncats - 2)) 0) := by
  have hidx : imodel * (ncats - 1) + (ncats - 1) - 1 = imodel * (ncats - 1) + (ncats - 2) := by
    omega
  constructor
  · intro hx
    obtain ⟨k, hk⟩ := trainDigit_isSome thresh (ncats - 1) imodel x (by omega)
    refine ⟨k, hk, ?_⟩
    rw [predictDigit_eq_trainDigit thresh (ncats - 1) imodel x (by rw [hidx]; exact not_lt.mpr hx)]
    exact hk
  · intro hne
    by_contra hx
    exact hne (predictDigit_eq_trainDigit thresh (ncats - 1) imodel x
      (by rw [hidx]; exact hx)).symm

/-- Witness of C20 on the threshold row `[1, 1, 2]` (four categories) at the
output `2`, which equals the last threshold. -/
theorem C20_quantizers_agree_below_top_witness :
    ∃ k, trainDigit [(1 : Int), 1, 2] (4 - 1) 0 2 = some k ∧
      predictDigit [(1 : Int), 1, 2] (4 - 1) 0 2 = some k :=
  (C20_quantizers_agree_below_top [(1 : Int), 1, 2] 4 0 2 (by decide)).1 (by decide)

/-- C14: over a non-decreasing threshold row, an output exactly equal to the
threshold `t[j]` is quantized by the constructor and by `predict` to the same
digit `k ≤ j`, the smallest index whose threshold is at least that value: it
never falls into a band above `j`. -/
theorem C14_boundary_value_lower_band (thresh : List α) (ncats imodel j : Nat)
    (hc : 2 ≤ ncats) (hj : j < ncats - 1)
    (hmono : ∀ j, j < ncats - 1 → ∀ i, i ≤ j →
      thresh.getD (imodel * (ncats - 1) + i) 0 ≤ thresh.getD (imodel * (ncats - 1) + j) 0) :
    ∃ k, trainDigit thresh (ncats - 1) imodel (thresh.getD (imodel * (ncats - 1) + j) 0) = some k ∧
      predictDigit thresh (ncats - 1) imodel (thresh.getD (imodel * (ncats - 1) + j) 0) = some k ∧
      k ≤ j ∧
      thresh.getD (imodel * (ncats - 1) + j) 0 ≤ thresh.getD (imodel * (ncats - 1) + k) 0 ∧
      ∀ i, i < k →
        thresh.getD (imodel * (ncats - 1) + i) 0 < thresh.getD (imodel * (ncats - 1) + j) 0 := by
  obtain ⟨k, hk, _, hlt, hge⟩ :=
    trainDigit_sorted thresh (ncats - 1) imodel (thresh.getD (imodel * (ncats - 1) + j) 0)
      (by omega) hmono
  have hkj : k ≤ j := by
    by_contra hc2
    exact lt_irrefl _ (hlt j (by omega))
  have hidx : imodel * (ncats - 1) + (ncats - 1) - 1 = imodel * (ncats - 1) + (ncats - 2) := by
    omega
  refine ⟨k, hk, ?_, hkj, hge k (le_refl _) (by omega), hlt⟩
  rw [predictDigit_eq_trainDigit thresh (ncats - 1) imodel _
    (by rw [hidx]; exact not_lt.mpr (hmono (ncats - 2) (by omega) j (by omega)))]
  exact hk

/-- Witness of C14 on the threshold row `[1, 1, 2]` (four categories): the
output equal to `t[1] = 1` gets a digit `k ≤ 1` (it is 0). -/
theorem C14_boundary_value_lower_band_witness :
    ∃ k, trainDigit [(1 : Int), 1, 2] (4 - 1) 0 ([(1 : Int), 1, 2].getD (0 * (4 - 1) + 1) 0)
        = some k ∧
      predictDigit [(1 : Int), 1, 2] (4 - 1) 0 ([(1 : Int), 1, 2].getD (0 * (4 - 1) + 1) 0)
        = some k ∧
      k ≤ 1 ∧
      [(1 : Int), 1, 2].getD (0 * (4 - 1) + 1) 0 ≤ [(1 : Int), 1, 2].getD (0 * (4 - 1) + k) 0 ∧
      ∀ i, i < k →
        [(1 : Int), 1, 2].getD (0 * (4 - 1) + i) 0 < [(1 : Int), 1, 2].getD (0 * (4 - 1) + 1) 0 :=
  C14_boundary_value_lower_band [(1 : Int), 1, 2] 4 0 1 (by decide) (by decide) (by decide)

end AgreementLemmas

/-! ## Special configurations of the oracle -/

section SpecialCases

variable {α : Type} [LinearOrderedRing α]

/-- Every read of the winner table of a constructed oracle gives a model
index. -/
theorem construct_winners_getD_lt (models : Nat → List α → α) (n ninputs : Nat)
    (tset : List α) (nmods ncat ibin : Nat) (hm : 1 ≤ nmods) :
    (construct models n ninputs tset nmods ncat).winners.getD ibin 0 < nmods :=
  winners_getD_lt (trainedBins models n ninputs tset nmods ncat)
    (nbinsLoop nmods ncat).toNat nmods ibin hm

/-- The winner table of a constructed oracle has `ncat ^ nmods` entries when
that number fits an `int`. -/
theorem construct_winners_length (models : Nat → List α → α) (n ninputs : Nat)
    (tset : List α) (nmods ncat : Nat) (hfit : ncat ^ nmods ≤ 2147483647) :
    (construct models n ninputs tset nmods ncat).winners.length = ncat ^ nmods := by
  show (computeWinners _ _ _).length = _
  unfold computeWinners
  rw [List.length_map, List.length_range, nbins_toNat nmods ncat hfit]

/-- The vector `outwork` of a constructed oracle is `nmods` long. -/
theorem construct_outwork_length (models : Nat → List α → α) (n ninputs : Nat)
    (tset : List α) (nmods ncat : Nat) :
    (construct models n ninputs tset nmods ncat).outwork.length = nmods :=
  List.length_replicate nmods (0 : α)

/-- The value returned by `predict` on a constructed oracle is the output of
the model `winners[ibin]`. -/
theorem predict_construct (models : Nat → List α → α) (n ninputs : Nat)
    (tset : List α) (nmods ncat : Nat) (input : List α) (hm : 1 ≤ nmods) :
    (predict models (construct models n ninputs tset nmods ncat) input).2
      = models
          ((construct models n ninputs tset nmods ncat).winners.getD
            (predictBin models (construct models n ninputs tset nmods ncat) input) 0)
          input := by
  have hw := construct_winners_getD_lt models n ninputs tset nmods ncat
    (predictBin models (construct models n ninputs tset nmods ncat) input) hm
  exact predictLoop_getD models (construct models n ninputs tset nmods ncat) input _ hw
    (by rw [construct_outwork_length]; exact hw)

/-- With one threshold per model (two categories) the quantizer of `predict`
returns digit 0 for every output. -/
theorem predictDigit_two_categories (thresh : List α) (imodel : Nat) (out : α) :
    predictDigit thresh (2 - 1) imodel out = some 0 := by
  unfold predictDigit
  split
  · rfl
  · split
    · rfl
    · rfl

/-- With two categories the bin looked up by `predict` is bin 0. -/
theorem predictBin_two_categories (models : Nat → List α → α) (af : AfterFact α)
    (input : List α) (h2 : af.ncats = 2) : predictBin models af input = 0 := by
  rw [predictBin_eq_binLoop, binLoop_eq, h2]
  show ∑ m in Finset.range af.nmodels,
    (predictDigit af.thresh (2 - 1) m (models m input)).getD 0 * 2 ^ m = 0
  apply Finset.sum_eq_zero
  intro m _
  rw [predictDigit_two_categories]
  exact Nat.zero_mul _

/-- C19: with two categories `predict` computes digit 0 for every model and
every output, so the bin looked up is bin 0 for every input, and the
prediction of a constructed oracle is always the output of the one model
`winners[0]`. -/
theorem C19_two_categories_always_bin_zero (models : Nat → List α → α) (n ninputs : Nat)
    (tset : List α) (nmods : Nat) (input : List α)
    (hm : 1 ≤ nmods) (hfit : 2 ^ nmods ≤ 2147483647) :
    (∀ (thresh : List α) (imodel : Nat) (out : α),
      predictDigit thresh (2 - 1) imodel out = some 0) ∧
    predictBin models (construct models n ninputs tset nmods 2) input = 0 ∧
    0 < (construct models n ninputs tset nmods 2).winners.length ∧
    (construct models n ninputs tset nmods 2).winners.getD 0 0 < nmods ∧
    (predict models (construct models n ninputs tset nmods 2) input).2
      = models ((construct models n ninputs tset nmods 2).winners.getD 0 0) input := by
  have hb : predictBin models (construct models n ninputs tset nmods 2) input = 0 :=
    predictBin_two_categories models _ input rfl
  refine ⟨predictDigit_two_categories, hb, ?_,
    construct_winners_getD_lt models n ninputs tset nmods 2 0 hm, ?_⟩
  · rw [construct_winners_length models n ninputs tset nmods 2 hfit]
    exact pow_pos (by decide) nmods
  · have h := predict_construct models n ninputs tset nmods 2 input hm
    rw [hb] at h
    exact h

/-- Witness of C19 in the example oracle (2 models, 2 categories) on the
input `(4, 8)`. -/
theorem C19_two_categories_always_bin_zero_witness :
    (1 ≤ 2 ∧ 2 ^ 2 ≤ 2147483647) ∧
    predictBin exampleModels (construct exampleModels 4 2 exampleTset 2 2) [4, 8] = 0 ∧
    (predict exampleModels (construct exampleModels 4 2 exampleTset 2 2) [4, 8]).2
      = exampleModels ((construct exampleModels 4 2 exampleTset 2 2).winners.getD 0 0) [4, 8] :=
  ⟨by decide,
   (C19_two_categories_always_bin_zero exampleModels 4 2 exampleTset 2 [4, 8]
      (by decide) (by decide)).2.1,
   (C19_two_categories_always_bin_zero exampleModels 4 2 exampleTset 2 [4, 8]
      (by decide) (by decide)).2.2.2.2⟩

/-- C13: with a single model (and any `ncat ≥ 2` that is an `int`), for every
training set and every input the bin looked up by `predict` is inside the
winner table and the prediction equals that model's raw output on the input. -/
theorem C13_single_model_raw_output (models : Nat → List α → α) (n ninputs : Nat)
    (tset : List α) (ncat : Nat) (input : List α)
    (hc : 2 ≤ ncat) (hfit : ncat ≤ 2147483647) :
    predictBin models (construct models n ninputs tset 1 ncat) input
      < (construct models n ninputs tset 1 ncat).winners.length ∧
    (predict models (construct models n ninputs tset 1 ncat) input).2 = models 0 input := by
  have hw := construct_winners_getD_lt models n ninputs tset 1 ncat
    (predictBin models (construct models n ninputs tset 1 ncat) input) (le_refl 1)
  have hw0 : (construct models n ninputs tset 1 ncat).winners.getD
      (predictBin models (construct models n ninputs tset 1 ncat) input) 0 = 0 := by
    omega
  constructor
  · rw [construct_winners_length models n ninputs tset 1 ncat (by rw [pow_one]; exact hfit)]
    exact predictBin_lt models (construct models n ninputs tset 1 ncat) input hc
  · have h := predict_construct models n ninputs tset 1 ncat input (le_refl 1)
    rw [hw0] at h
    exact h

/-- Witness of C13: one model, two categories, the example training set. -/
theorem C13_single_model_raw_output_witness :
    (2 ≤ 2 ∧ 2 ≤ 2147483647) ∧
    (predict exampleModels (construct exampleModels 4 2 exampleTset 1 2) [4, 8]).2
      = exampleModels 0 [4, 8] :=
  ⟨by norm_num,
   (C13_single_model_raw_output exampleModels 4 2 exampleTset 2 [4, 8]
      (by norm_num) (by norm_num)).2⟩

/-- C16: `predict` leaves the threshold table, the winner table and the stored
sizes `ncases`, `nin`, `nmodels`, `ncats` unchanged for every input; the oracle
after the call differs from the oracle before it in `outwork` only. -/
theorem C16_predict_frame (models : Nat → List α → α) (af : AfterFact α) (input : List α) :
    (predict models af input).1.thresh = af.thresh ∧
    (predict models af input).1.winners = af.winners ∧
    (predict models af input).1.ncases = af.ncases ∧
    (predict models af input).1.nin = af.nin ∧
    (predict models af input).1.nmodels = af.nmodels ∧
    (predict models af input).1.ncats = af.ncats ∧
    (predict models af input).1 = { af with outwork := (predictLoop models af input).1 } :=
  ⟨rfl, rfl, rfl, rfl, rfl, rfl, rfl⟩

end SpecialCases

/-! ## Bin counters and coverage -/

/-- Counters after the loop `for (i=0 ; i<n ; i++) ++bins[idx i]` on an array of
`N` zeros: the array keeps its length, and counter `p` holds the number of
passes `i` with `idx i = p`. -/
theorem foldl_incr_spec (idx : Nat → Nat) (N : Nat) :
    ∀ n,
      ((List.range n).foldl
          (fun (bins : List Nat) i => bins.modify (fun c => c + 1) (idx i))
          (List.replicate N 0)).length = N ∧
      ∀ p,
        ((List.range n).foldl
            (fun (bins : List Nat) i => bins.modify (fun c => c + 1) (idx i))
            (List.replicate N 0)).getD p 0
          = if p < N then (List.range n).countP (fun i => decide (idx i = p)) else 0 := by
  intro n
  induction n with
  | zero =>
    refine ⟨List.length_replicate N 0, ?_⟩
    intro p
    rw [List.getD_eq_getElem?_getD]
    simp only [List.range_zero, List.foldl_nil, List.countP_nil, ite_self]
    rw [List.getElem?_replicate]
    split <;> rfl
  | succ n ih =>
    rw [List.range_succ, List.foldl_append, List.foldl_cons, List.foldl_nil]
    generalize (List.range n).foldl
        (fun (bins : List Nat) i => bins.modify (fun c => c + 1) (idx i))
        (List.replicate N 0) = bins at ih ⊢
    obtain ⟨hlen, hget⟩ := ih
    refine ⟨by rw [List.length_modify]; exact hlen, ?_⟩
    intro p
    have hp := hget p
    rw [List.getD_eq_getElem?_getD] at hp ⊢
    rw [List.getElem?_modify, List.countP_append]
    cases hb : bins[p]? with
    | none =>
      have hge : N ≤ p := by
        rw [← hlen]
        exact List.getElem?_eq_none_iff.mp hb
      rw [if_neg (by omega)]
      rfl
    | some c =>
      have hlt : p < N := by
        rw [← hlen]
        by_contra hcon
        rw [List.getElem?_eq_none_iff.mpr (by omega)] at hb
        cases hb
      rw [hb, if_pos hlt] at hp
      rw [if_pos hlt, ← hp]
      by_cases hidx : idx n = p
      · simp [hidx]
      · simp [hidx]

section CoverageLemmas

variable {α : Type} [LinearOrderedRing α]

/-- The index into `bins` that a training case increments: `ibin*nmodels+k`. -/
theorem countBins_eq (thresh outputs tset : List α) (ncases nin nmodels ncats nbins : Nat) :
    countBins thresh outputs tset ncases nin nmodels ncats nbins
      = (List.range ncases).foldl
          (fun (bins : List Nat) icase => bins.modify (fun c => c + 1)
            (trainBin thresh ncats nmodels (outputs.drop (icase * nmodels)) * nmodels
              + bestModel (outputs.drop (icase * nmodels))
                  ((tset.drop (icase * (nin + 1))).getD nin 0) nmodels))
          (List.replicate (nbins * nmodels) 0) :=
  rfl

/-- A counter of a bin in which no training case landed is zero. -/
theorem countBins_row_zero (thresh outputs tset : List α)
    (ncases nin nmodels ncats nbins ibin m : Nat) (hm : m < nmodels)
    (hno : ∀ icase, icase < ncases →
      trainBin thresh ncats nmodels (outputs.drop (icase * nmodels)) ≠ ibin) :
    (countBins thresh outputs tset ncases nin nmodels ncats nbins).getD (ibin * nmodels + m) 0
      = 0 := by
  rw [countBins_eq, (foldl_incr_spec _ (nbins * nmodels) ncases).2]
  split
  · rw [List.countP_eq_zero]
    intro icase hic
    have hic2 := List.mem_range.mp hic
    have hk : bestModel (outputs.drop (icase * nmodels))
        ((tset.drop (icase * (nin + 1))).getD nin 0) nmodels < nmodels := by
      obtain ⟨j, rfl⟩ : ∃ j, nmodels = j + 1 := ⟨nmodels - 1, by omega⟩
      exact (bestLoop_spec _ _ j).1
    intro hdec
    have heq := of_decide_eq_true hdec
    apply hno icase hic2
    have h1 := congrArg (fun z => z / nmodels) heq
    simp only at h1
    rw [Nat.mul_comm _ nmodels, Nat.mul_add_div (by omega), Nat.div_eq_of_lt hk,
      Nat.mul_comm ibin nmodels, Nat.mul_add_div (by omega), Nat.div_eq_of_lt hm] at h1
    omega
  · rfl

/-- The winner of a bin whose counters are all zero is model 0. -/
theorem winnerLoop_zero_row (bins : List Nat) (nmodels ibin : Nat) (hn : 1 ≤ nmodels)
    (hz : ∀ m, m < nmodels → bins.getD (ibin * nmodels + m) 0 = 0) :
    (winnerLoop bins nmodels ibin).1 = 0 := by
  obtain ⟨h1, _, h3⟩ := winnerLoop_first_max bins nmodels ibin hn
  by_contra hne
  have h := h3 0 (by omega)
  rw [hz _ h1] at h
  exact Nat.not_lt_zero _ h

/-- In a constructed oracle, a bin in which no training case landed has all
its counters zero and winner 0. -/
theorem empty_bin_default (models : Nat → List α → α) (n ninputs : Nat) (tset : List α)
    (nmods ncat ibin : Nat) (hm : 1 ≤ nmods) (hb : ibin < (nbinsLoop nmods ncat).toNat)
    (hno : ∀ icase, icase < n → caseBin models n ninputs tset nmods ncat icase ≠ ibin) :
    (∀ m, m < nmods →
      (trainedBins models n ninputs tset nmods ncat).getD (ibin * nmods + m) 0 = 0) ∧
    (construct models n ninputs tset nmods ncat).winners.getD ibin 0 = 0 := by
  have hz : ∀ m, m < nmods →
      (trainedBins models n ninputs tset nmods ncat).getD (ibin * nmods + m) 0 = 0 :=
    fun m hmm => countBins_row_zero _ _ tset n ninputs nmods ncat _ ibin m hmm hno
  refine ⟨hz, ?_⟩
  show (computeWinners _ _ _).getD ibin 0 = 0
  rw [getD_computeWinners _ _ nmods ibin hb]
  exact winnerLoop_zero_row _ nmods ibin hm hz

/-- C15: in a constructed oracle (at least one model, representable bin
count) the number of bins in which no training case landed is at least
`ncat ^ nmods - n`; each such bin has all counters zero and winner 0; hence
whenever `ncat ^ nmods > 2 * n`, more than half of all bins hold the default
winner 0. -/
theorem C15_coverage_gap (models : Nat → List α → α) (n ninputs : Nat) (tset : List α)
    (nmods ncat : Nat) (hm : 1 ≤ nmods) (hfit : ncat ^ nmods ≤ 2147483647) :
    ncat ^ nmods - n
      ≤ ((Finset.range (ncat ^ nmods)).filter
          (fun ibin => ∀ icase, icase < n →
            caseBin models n ninputs tset nmods ncat icase ≠ ibin)).card ∧
    (∀ ibin, ibin < ncat ^ nmods →
      (∀ icase, icase < n → caseBin models n ninputs tset nmods ncat icase ≠ ibin) →
      (∀ m, m < nmods →
        (trainedBins models n ninputs tset nmods ncat).getD (ibin * nmods + m) 0 = 0) ∧
      (construct models n ninputs tset nmods ncat).winners.getD ibin 0 = 0) ∧
    (2 * n < ncat ^ nmods →
      ncat ^ nmods
        < 2 * ((Finset.range (ncat ^ nmods)).filter
            (fun ibin =>
              (construct models n ninputs tset nmods ncat).winners.getD ibin 0 = 0)).card) := by
  have hcard : ncat ^ nmods - n
      ≤ ((Finset.range (ncat ^ nmods)).filter
          (fun ibin => ∀ icase, icase < n →
            caseBin models n ninputs tset nmods ncat icase ≠ ibin)).card := by
    have himg : ((Finset.range n).image
        (fun icase => caseBin models n ninputs tset nmods ncat icase)).card ≤ n := by
      have := Finset.card_image_le (s := Finset.range n)
        (f := fun icase => caseBin models n ninputs tset nmods ncat icase)
      rw [Finset.card_range] at this
      exact this
    have hsd := Finset.le_card_sdiff
      ((Finset.range n).image (fun icase => caseBin models n ninputs tset nmods ncat icase))
      (Finset.range (ncat ^ nmods))
    rw [Finset.card_range] at hsd
    have hsub : (Finset.range (ncat ^ nmods)) \
        ((Finset.range n).image (fun icase => caseBin models n ninputs tset nmods ncat icase))
        ⊆ (Finset.range (ncat ^ nmods)).filter
          (fun ibin => ∀ icase, icase < n →
            caseBin models n ninputs tset nmods ncat icase ≠ ibin) := by
      intro ibin hib
      rw [Finset.mem_sdiff] at hib
      rw [Finset.mem_filter]
      refine ⟨hib.1, ?_⟩
      intro icase hic heq
      exact hib.2 (Finset.mem_image.mpr ⟨icase, Finset.mem_range.mpr hic, heq⟩)
    have hle := Finset.card_le_card hsub
    omega
  have hdef : ∀ ibin, ibin < ncat ^ nmods →
      (∀ icase, icase < n → caseBin models n ninputs tset nmods ncat icase ≠ ibin) →
      (∀ m, m < nmods →
        (trainedBins models n ninputs tset nmods ncat).getD (ibin * nmods + m) 0 = 0) ∧
      (construct models n ninputs tset nmods ncat).winners.getD ibin 0 = 0 := by
    intro ibin hib hno
    exact empty_bin_default models n ninputs tset nmods ncat ibin hm
      (by rw [nbins_toNat nmods ncat hfit]; exact hib) hno
  refine ⟨hcard, hdef, ?_⟩
  intro h2
  have hsub : (Finset.range (ncat ^ nmods)).filter
      (fun ibin => ∀ icase, icase < n →
        caseBin models n ninputs tset nmods ncat icase ≠ ibin)
      ⊆ (Finset.range (ncat ^ nmods)).filter
        (fun ibin => (construct models n ninputs tset nmods ncat).winners.getD ibin 0 = 0) := by
    intro ibin hib
    rw [Finset.mem_filter] at hib ⊢
    exact ⟨hib.1, (hdef ibin (Finset.mem_range.mp hib.1) hib.2).2⟩
  have hle := Finset.card_le_card hsub
  omega

/-- Witness of C15 in the example training set with 2 models and 3
categories: 9 bins for 4 cases, so at least 5 bins are empty and more than
half of the bins hold winner 0. -/
theorem C15_coverage_gap_witness :
    (1 ≤ 2 ∧ 3 ^ 2 ≤ 2147483647 ∧ 2 * 4 < 3 ^ 2) ∧
    3 ^ 2 - 4
      ≤ ((Finset.range (3 ^ 2)).filter
          (fun (ibin : Nat) => ∀ (icase : Nat), icase < 4 →
            caseBin exampleModels 4 2 exampleTset 2 3 icase ≠ ibin)).card ∧
    3 ^ 2
      < 2 * ((Finset.range (3 ^ 2)).filter
          (fun (ibin : Nat) =>
            (construct exampleModels 4 2 exampleTset 2 3).winners.getD ibin 0 = 0)).card :=
  ⟨by norm_num,
   (C15_coverage_gap exampleModels 4 2 exampleTset 2 3 (by norm_num) (by norm_num)).1,
   (C15_coverage_gap exampleModels 4 2 exampleTset 2 3 (by norm_num) (by norm_num)).2.2
     (by norm_num)⟩

end CoverageLemmas

/-! ## Termination and safety -/

section SafetyLemmas

variable {α : Type} [LinearOrderedRing α]

/-- The fuelled loop `bisect` runs `bisectStep` once and goes on with the
variables it leaves, or stops at its `break`. -/
theorem bisect_succ (thresh : List α) (nthresh imodel : Nat) (x : α) (fuel klow khigh : Nat) :
    bisect thresh nthresh imodel x (fuel + 1) klow khigh
      = match bisectStep thresh nthresh imodel x klow khigh with
        | Sum.inl s => bisect thresh nthresh imodel x fuel s.1 s.2
        | Sum.inr k => some k := by
  rw [bisect]
  unfold bisectStep
  simp only
  split
  · rfl
  · split <;> rfl

/-- A pass that does not break picks `k` strictly between `klow` and `khigh`
and replaces one of the two by it. -/
theorem bisectStep_inl (thresh : List α) (nthresh imodel : Nat) (x : α)
    (klow khigh a b : Nat) (hle : klow ≤ khigh)
    (h : bisectStep thresh nthresh imodel x klow khigh = Sum.inl (a, b)) :
    klow < (klow + khigh) / 2 ∧ (klow + khigh) / 2 < khigh ∧
    ((a = klow ∧ b = (klow + khigh) / 2 ∧ x ≤ thresh.getD (imodel * nthresh + b) 0) ∨
     (a = (klow + khigh) / 2 ∧ b = khigh ∧ thresh.getD (imodel * nthresh + a) 0 < x)) := by
  unfold bisectStep at h
  simp only at h
  by_cases hk : (klow + khigh) / 2 = klow
  · rw [if_pos hk] at h
    cases h
  · rw [if_neg hk] at h
    refine ⟨by omega, by omega, ?_⟩
    by_cases hx : x ≤ thresh.getD (imodel * nthresh + (klow + khigh) / 2) 0
    · rw [if_pos hx] at h
      have h2 := Sum.inl.inj h
      have ha : klow = a := congrArg Prod.fst h2
      have hb : (klow + khigh) / 2 = b := congrArg Prod.snd h2
      exact Or.inl ⟨ha.symm, hb.symm, hb ▸ hx⟩
    · rw [if_neg hx] at h
      have h2 := Sum.inl.inj h
      have ha : (klow + khigh) / 2 = a := congrArg Prod.fst h2
      have hb : khigh = b := congrArg Prod.snd h2
      exact Or.inr ⟨ha.symm, hb.symm, ha ▸ lt_of_not_le hx⟩

/-- The `break` leaves `k = khigh`, and is taken only when `(klow+khigh)/2` is
`klow`. -/
theorem bisectStep_inr (thresh : List α) (nthresh imodel : Nat) (x : α)
    (klow khigh r : Nat)
    (h : bisectStep thresh nthresh imodel x klow khigh = Sum.inr r) :
    r = khigh ∧ (klow + khigh) / 2 = klow := by
  unfold bisectStep at h
  simp only at h
  by_cases hk : (klow + khigh) / 2 = klow
  · rw [if_pos hk] at h
    exact ⟨(Sum.inr.inj h).symm, hk⟩
  · rw [if_neg hk] at h
    split at h <;> cases h

/-- C21: the bisection loop reaches its `break` for every threshold count
`nthresh ≥ 1`, every threshold table and every output `x`; a pass that does
not break picks `k` strictly between `klow` and `khigh`, so `khigh - klow`
strictly decreases (and stays positive); a pass entered with
`thresh[klow] < x ≤ thresh[khigh]` keeps that relation, and the `break` then
happens with `khigh = klow + 1` and returns that `khigh`. -/
theorem C21_bisection_terminates (thresh : List α) (nthresh imodel : Nat) (x : α) :
    (1 ≤ nthresh → ∃ r, bisect thresh nthresh imodel x nthresh 0 (nthresh - 1) = some r) ∧
    (∀ klow khigh a b, klow ≤ khigh →
      bisectStep thresh nthresh imodel x klow khigh = Sum.inl (a, b) →
      klow < (klow + khigh) / 2 ∧ (klow + khigh) / 2 < khigh ∧
      (a, b) ∈ [(klow, (klow + khigh) / 2), ((klow + khigh) / 2, khigh)] ∧
      a < b ∧ b - a < khigh - klow) ∧
    (∀ klow khigh a b, klow ≤ khigh →
      thresh.getD (imodel * nthresh + klow) 0 < x →
      x ≤ thresh.getD (imodel * nthresh + khigh) 0 →
      bisectStep thresh nthresh imodel x klow khigh = Sum.inl (a, b) →
      thresh.getD (imodel * nthresh + a) 0 < x ∧ x ≤ thresh.getD (imodel * nthresh + b) 0) ∧
    (∀ klow khigh r, klow ≤ khigh →
      thresh.getD (imodel * nthresh + klow) 0 < x →
      x ≤ thresh.getD (imodel * nthresh + khigh) 0 →
      bisectStep thresh nthresh imodel x klow khigh = Sum.inr r →
      r = khigh ∧ khigh = klow + 1) := by
  refine ⟨?_, ?_, ?_, ?_⟩
  · intro hn
    exact bisect_terminates thresh nthresh imodel x nthresh 0 (nthresh - 1) (Nat.zero_le _)
      (by omega)
  · intro klow khigh a b hle h
    obtain ⟨h1, h2, h3⟩ := bisectStep_inl thresh nthresh imodel x klow khigh a b hle h
    refine ⟨h1, h2, ?_, ?_, ?_⟩
    · rcases h3 with ⟨ha, hb, _⟩ | ⟨ha, hb, _⟩
      · rw [ha, hb]; exact List.mem_cons_self _ _
      · rw [ha, hb]; exact List.mem_cons_of_mem _ (List.mem_cons_self _ _)
    · rcases h3 with ⟨ha, hb, _⟩ | ⟨ha, hb, _⟩ <;> omega
    · rcases h3 with ⟨ha, hb, _⟩ | ⟨ha, hb, _⟩ <;> omega
  · intro klow khigh a b hle hlo hhi h
    obtain ⟨_, _, h3⟩ := bisectStep_inl thresh nthresh imodel x klow khigh a b hle h
    rcases h3 with ⟨ha, _, hx⟩ | ⟨_, hb, hx⟩
    · exact ⟨ha ▸ hlo, hx⟩
    · exact ⟨hx, hb ▸ hhi⟩
  · intro klow khigh r hle hlo hhi h
    obtain ⟨hr, hk⟩ := bisectStep_inr thresh nthresh imodel x klow khigh r h
    refine ⟨hr, ?_⟩
    have hne : klow ≠ khigh := by
      intro heq
      rw [heq] at hlo
      exact absurd (lt_of_lt_of_le hlo hhi) (lt_irrefl _)
    omega

/-- Witness of C21 on the threshold row `[1, 3, 5, 7]` at the output `4`: the
loop returns an index, and the first pass (from `klow = 0`, `khigh = 3`) keeps
`thresh[klow] < x ≤ thresh[khigh]`. -/
theorem C21_bisection_terminates_witness :
    (∃ r, bisect [(1 : Int), 3, 5, 7] 4 0 4 4 0 (4 - 1) = some r) ∧
    ([(1 : Int), 3, 5, 7].getD (0 * 4 + 1) 0 < 4 ∧ (4 : Int) ≤ [(1 : Int), 3, 5, 7].getD (0 * 4 + 3) 0) :=
  ⟨(C21_bisection_terminates [(1 : Int), 3, 5, 7] 4 0 4).1 (by decide),
   (C21_bisection_terminates [(1 : Int), 3, 5, 7] 4 0 4).2.2.1 0 3 1 3 (by decide) (by decide)
     (by decide) (by decide)⟩

/-- C22: for an oracle built with at least two categories, at least one model
and a representable bin count, every call of `predict` computes a bin below
`ncat ^ nmods`, which is the length of the winner table, and the winner stored
at that bin is below `nmods`, which is the length of the output buffer: both
lookups are in range. -/
theorem C22_predict_lookups_in_range (models : Nat → List α → α) (n ninputs : Nat)
    (tset : List α) (nmods ncat : Nat) (input : List α)
    (hc : 2 ≤ ncat) (hm : 1 ≤ nmods) (hfit : ncat ^ nmods ≤ 2147483647) :
    predictBin models (construct models n ninputs tset nmods ncat) input < ncat ^ nmods ∧
    (construct models n ninputs tset nmods ncat).winners.length = ncat ^ nmods ∧
    (construct models n ninputs tset nmods ncat).winners.getD
      (predictBin models (construct models n ninputs tset nmods ncat) input) 0 < nmods ∧
    (predictLoop models (construct models n ninputs tset nmods ncat) input).1.length = nmods :=
  ⟨predictBin_lt models (construct models n ninputs tset nmods ncat) input hc,
   construct_winners_length models n ninputs tset nmods ncat hfit,
   construct_winners_getD_lt models n ninputs tset nmods ncat _ hm,
   ((predictLoop_outwork models (construct models n ninputs tset nmods ncat) input nmods).1).trans
     (construct_outwork_length models n ninputs tset nmods ncat)⟩

/-- Witness of C22 in the example oracle on the input `(4, 8)`. -/
theorem C22_predict_lookups_in_range_witness :
    (2 ≤ 2 ∧ 1 ≤ 2 ∧ 2 ^ 2 ≤ 2147483647) ∧
    predictBin exampleModels (construct exampleModels 4 2 exampleTset 2 2) [4, 8] < 2 ^ 2 ∧
    (construct exampleModels 4 2 exampleTset 2 2).winners.getD
      (predictBin exampleModels (construct exampleModels 4 2 exampleTset 2 2) [4, 8]) 0 < 2 :=
  ⟨by norm_num,
   (C22_predict_lookups_in_range exampleModels 4 2 exampleTset 2 2 [4, 8]
      (by norm_num) (by norm_num) (by norm_num)).1,
   (C22_predict_lookups_in_range exampleModels 4 2 exampleTset 2 2 [4, 8]
      (by norm_num) (by norm_num) (by norm_num)).2.2.1⟩

end SafetyLemmas

/-- Counting the passes that hit one of the `M` counters of row `B` is counting
the passes whose row is `B`. -/
theorem sum_row_countP (b k : Nat → Nat) (M B : Nat) :
    ∀ n, (∀ i, i < n → k i < M) →
      ∑ m in Finset.range M,
          (List.range n).countP (fun i => decide (b i * M + k i = B * M + m))
        = (List.range n).countP (fun i => decide (b i = B)) := by
  intro n
  induction n with
  | zero => intro _; simp
  | succ n ih =>
    intro hk
    have hkn : k n < M := hk n (Nat.lt_succ_self n)
    have hstep : ∑ m in Finset.range M, (if b n * M + k n = B * M + m then 1 else 0)
        = if b n = B then 1 else 0 := by
      by_cases hb : b n = B
      · rw [if_pos hb, hb]
        have : ∀ m, (B * M + k n = B * M + m) = (k n = m) := by
          intro m
          exact propext ⟨fun h => by omega, fun h => by omega⟩
        simp only [this]
        rw [Finset.sum_ite_eq]
        exact if_pos (Finset.mem_range.mpr hkn)
      · rw [if_neg hb]
        apply Finset.sum_eq_zero
        intro m hm
        have hmM := Finset.mem_range.mp hm
        rw [if_neg]
        intro heq
        apply hb
        have h1 := congrArg (fun z => z / M) heq
        simp only at h1
        rw [Nat.mul_comm (b n) M, Nat.mul_add_div (by omega), Nat.div_eq_of_lt hkn,
          Nat.mul_comm B M, Nat.mul_add_div (by omega), Nat.div_eq_of_lt hmM] at h1
        omega
    simp only [List.range_succ, List.countP_append, List.countP_cons, List.countP_nil,
      decide_eq_true_eq, Nat.zero_add]
    rw [Finset.sum_add_distrib, ih (fun i hi => hk i (Nat.lt_succ_of_lt hi)), hstep]

/-- Counting, counter by counter, the passes that hit a counter below `N`
counts every pass once. -/
theorem sum_all_countP (idx : Nat → Nat) (N : Nat) :
    ∀ n, (∀ i, i < n → idx i < N) →
      ∑ p in Finset.range N, (List.range n).countP (fun i => decide (idx i = p)) = n := by
  intro n
  induction n with
  | zero => intro _; simp
  | succ n ih =>
    intro hidx
    have hstep : ∑ p in Finset.range N, (if idx n = p then 1 else 0) = 1 := by
      rw [Finset.sum_ite_eq]
      exact if_pos (Finset.mem_range.mpr (hidx n (Nat.lt_succ_self n)))
    simp only [List.range_succ, List.countP_append, List.countP_cons, List.countP_nil,
      decide_eq_true_eq, Nat.zero_add]
    rw [Finset.sum_add_distrib, ih (fun i hi => hidx i (Nat.lt_succ_of_lt hi)), hstep]

section CounterSums

variable {α : Type} [LinearOrderedRing α]

/-- The model credited with a case is a model index. -/
theorem bestModel_lt (outptr : List α) (target : α) (nmodels : Nat) (hn : 1 ≤ nmodels) :
    bestModel outptr target nmodels < nmodels := by
  obtain ⟨j, rfl⟩ : ∃ j, nmodels = j + 1 := ⟨nmodels - 1, by omega⟩
  exact (bestLoop_spec outptr target j).1

/-- C24: after the training pass of a constructed oracle (at least one
category and one model, representable bin count) every training case has
incremented exactly one counter: for every bin the sum of its per-model win
counts is the number of training cases tallied in that bin, and the sum of all
`ncat ^ nmods * nmods` counters is `n`. -/
theorem C24_each_case_counted_once (models : Nat → List α → α) (n ninputs : Nat)
    (tset : List α) (nmods ncat : Nat)
    (hc : 1 ≤ ncat) (hm : 1 ≤ nmods) (hfit : ncat ^ nmods ≤ 2147483647) :
    (trainedBins models n ninputs tset nmods ncat).length = ncat ^ nmods * nmods ∧
    (∀ ibin, ibin < ncat ^ nmods →
      ∑ m in Finset.range nmods,
          (trainedBins models n ninputs tset nmods ncat).getD (ibin * nmods + m) 0
        = (List.range n).countP
            (fun icase => decide (caseBin models n ninputs tset nmods ncat icase = ibin))) ∧
    ∑ p in Finset.range (ncat ^ nmods * nmods),
        (trainedBins models n ninputs tset nmods ncat).getD p 0 = n := by
  have hspec := foldl_incr_spec
    (fun icase =>
      caseBin models n ninputs tset nmods ncat icase * nmods
        + bestModel ((computeOutputs models n ninputs nmods tset).drop (icase * nmods))
            ((tset.drop (icase * (ninputs + 1))).getD ninputs 0) nmods)
    (ncat ^ nmods * nmods) n
  have hbins : trainedBins models n ninputs tset nmods ncat
      = (List.range n).foldl
          (fun (bins : List Nat) icase => bins.modify (fun c => c + 1)
            (caseBin models n ninputs tset nmods ncat icase * nmods
              + bestModel ((computeOutputs models n ninputs nmods tset).drop (icase * nmods))
                  ((tset.drop (icase * (ninputs + 1))).getD ninputs 0) nmods))
          (List.replicate (ncat ^ nmods * nmods) 0) := by
    unfold trainedBins
    simp only
    rw [countBins_eq, nbins_toNat nmods ncat hfit]
    rfl
  rw [hbins]
  refine ⟨hspec.1, ?_, ?_⟩
  · intro ibin hib
    have hlt : ∀ m, m < nmods → ibin * nmods + m < ncat ^ nmods * nmods := by
      intro m hmm
      have h1 : (ibin + 1) * nmods ≤ ncat ^ nmods * nmods := Nat.mul_le_mul_right _ hib
      rw [Nat.succ_mul] at h1
      omega
    rw [Finset.sum_congr rfl (fun m hmm => by
      rw [hspec.2 (ibin * nmods + m), if_pos (hlt m (Finset.mem_range.mp hmm))])]
    exact sum_row_countP (fun icase => caseBin models n ninputs tset nmods ncat icase)
      (fun icase => bestModel ((computeOutputs models n ninputs nmods tset).drop (icase * nmods))
        ((tset.drop (icase * (ninputs + 1))).getD ninputs 0) nmods)
      nmods ibin n (fun i _ => bestModel_lt _ _ nmods hm)
  · rw [Finset.sum_congr rfl (fun p hp => by
      rw [hspec.2 p, if_pos (Finset.mem_range.mp hp)])]
    apply sum_all_countP
    intro icase _
    have hb : caseBin models n ninputs tset nmods ncat icase < ncat ^ nmods :=
      trainBin_lt _ ncat nmods _ hc
    have hk := bestModel_lt ((computeOutputs models n ninputs nmods tset).drop (icase * nmods))
      ((tset.drop (icase * (ninputs + 1))).getD ninputs 0) nmods hm
    have h1 : (caseBin models n ninputs tset nmods ncat icase + 1) * nmods
        ≤ ncat ^ nmods * nmods := Nat.mul_le_mul_right _ hb
    rw [Nat.succ_mul] at h1
    omega

/-- Witness of C24 in the example oracle (4 cases, 2 models, 2 categories):
the 8 counters sum to 4. -/
theorem C24_each_case_counted_once_witness :
    (1 ≤ 2 ∧ 1 ≤ 2 ∧ 2 ^ 2 ≤ 2147483647) ∧
    ∑ p in Finset.range (2 ^ 2 * 2),
        (trainedBins exampleModels 4 2 exampleTset 2 2).getD p 0 = 4 :=
  ⟨by norm_num,
   (C24_each_case_counted_once exampleModels 4 2 exampleTset 2 2
      (by norm_num) (by norm_num) (by norm_num)).2.2⟩

end CounterSums

end AfterFac

/-! # BOOT_P_1 -/

namespace BootP1

section BootLemmas

variable {α : Type} [LinearOrderedField α]

end BootLemmas

/-- C26: every argument set with `nsamples > 0`, `nboot = 1`, `ntries > 0` is
accepted by the command line validation of BOOT_P_1 (such sets exist), and for
`nboot = 1` the variance divisor `nboot - 1` of `boot_bias_var` is zero; the
divisor is non-zero for every `nboot ≥ 2`. -/
theorem C26_variance_divisor_zero (Arg : Type) :
    (∀ (atoi : Arg → Int) (argv : Nat → Arg),
      0 < atoi (argv 1) → atoi (argv 2) = 1 → 0 < atoi (argv 3) →
      bootProcessArgs atoi 4 argv = BootArgs.accepted (atoi (argv 1)) 1 (atoi (argv 3))) ∧
    (∃ argv : Nat → Int,
      bootProcessArgs (fun a : Int => a) 4 argv = BootArgs.accepted 100 1 10) ∧
    varDivisor 1 = 0 ∧
    (∀ nboot : Int, 2 ≤ nboot → varDivisor nboot ≠ 0) := by
  refine ⟨?_, ⟨fun i => [0, 100, 1, 10].getD i 0, by decide⟩, rfl, ?_⟩
  · intro atoi argv h1 h2 h3
    unfold bootProcessArgs
    rw [if_neg (by decide)]
    simp only
    rw [if_neg (by rw [h2]; omega), h2]
  · intro nboot h
    unfold varDivisor
    omega

/-- Witness of C26: the arguments `100 1 10` are accepted with `nboot = 1`. -/
theorem C26_variance_divisor_zero_witness :
    bootProcessArgs (fun a : Int => a) 4 (fun i => [0, 100, 1, 10].getD i 0)
      = BootArgs.accepted 100 1 10 ∧ varDivisor 1 = 0 ∧ varDivisor 2 ≠ 0 :=
  ⟨(C26_variance_divisor_zero Int).1 (fun a : Int => a)
      (fun i => [0, 100, 1, 10].getD i 0) (by decide) (by decide) (by decide),
   (C26_variance_divisor_zero Int).2.2.1,
   (C26_variance_divisor_zero Int).2.2.2 2 (by decide)⟩

end BootP1

/-! # MI_ONLY -/

namespace MiOnly

section TieLemmas

variable {α : Type} [LinearOrderedField α]

/-- The variables examined by the tie-check loop are, in order, the variables
on which line 128 does not `continue`. -/
theorem tieCheckLoop_examined (data : List α) (ncases n_indep_vars idep : Nat) :
    ∀ nvars' nvars : Nat,
      ((List.range nvars').foldl
        (fun (s : Nat × List Nat) ivar =>
          if tieCheckSkips n_indep_vars idep ivar then s
          else
            (if (countTies (AfterFac.qsortd
                  ((List.range ncases).map fun i => data.getD (i * nvars + ivar) 0)) ncases : α)
                / (ncases : α) > 5 / 100 then s.1 + 1 else s.1, s.2 ++ [ivar]))
        (0, [])).2
        = (List.range nvars').filter (fun ivar => !tieCheckSkips n_indep_vars idep ivar) := by
  intro nvars' nvars
  induction nvars' with
  | zero => rfl
  | succ k ih =>
    rw [List.range_succ, List.foldl_append, List.foldl_cons, List.foldl_nil, List.filter_append]
    by_cases h : tieCheckSkips n_indep_vars idep k = true
    · rw [if_pos h, ih]
      simp [h]
    · rw [if_neg h]
      simp only
      rw [ih]
      simp [h]

/-- A variable is examined by the tie check if and only if it is a variable of
the file with `ivar ≤ n_indep_vars` or `ivar = idep`. -/
theorem mem_tieCheckLoop (data : List α) (nvars ncases n_indep_vars idep ivar : Nat) :
    ivar ∈ (tieCheckLoop data nvars ncases n_indep_vars idep).2
      ↔ ivar < nvars ∧ (ivar ≤ n_indep_vars ∨ ivar = idep) := by
  unfold tieCheckLoop
  rw [tieCheckLoop_examined data ncases n_indep_vars idep nvars nvars]
  simp only [List.mem_filter, List.mem_range, tieCheckSkips, Bool.not_eq_true',
    decide_eq_false_iff_not, not_and, not_not]
  constructor
  · rintro ⟨h1, h2⟩
    refine ⟨h1, ?_⟩
    by_cases h : ivar ≤ n_indep_vars
    · exact Or.inl h
    · exact Or.inr (h2 (by omega))
  · rintro ⟨h1, h2⟩
    refine ⟨h1, ?_⟩
    intro h
    rcases h2 with h2 | h2
    · omega
    · exact h2

/-- C27 fails on the code: in a file of 3 variables with `n_indep = 1` and
the dependent variable at index 2, variable 1 is examined by the tie check
although it is neither one of the first `n_indep` variables (`1 < 1` is false)
nor the dependent variable; in general the loop examines `ivar` exactly when
`ivar ≤ n_indep` or `ivar = idep`. -/
theorem C27_tie_check_examines_unselected_variable :
    (1 ∈ (tieCheckLoop [(1 : ℚ), 2, 3, 4, 5, 6] 3 2 1 2).2 ∧ ¬ (1 < 1 ∨ 1 = 2)) ∧
    (∀ (data : List ℚ) (nvars ncases n_indep_vars idep ivar : Nat),
      ivar ∈ (tieCheckLoop data nvars ncases n_indep_vars idep).2
        ↔ ivar < nvars ∧ (ivar ≤ n_indep_vars ∨ ivar = idep)) := by
  refine ⟨⟨?_, by decide⟩, fun data nvars ncases n_indep_vars idep ivar =>
    mem_tieCheckLoop data nvars ncases n_indep_vars idep ivar⟩
  rw [mem_tieCheckLoop]
  decide

end TieLemmas

/-! ## Counters of the permutation test -/

/-- A loop that updates two arrays independently is the pair of the two
loops. -/
theorem foldl_pair {A B I : Type} (f : A → I → A) (g : B → I → B) :
    ∀ (l : List I) (a : A) (b : B),
      l.foldl (fun (s : A × B) i => (f s.1 i, g s.2 i)) (a, b) = (l.foldl f a, l.foldl g b) := by
  intro l
  induction l with
  | nil => intro a b; rfl
  | cons x l ih => intro a b; exact ih (f a x) (g b x)

/-- Counters after the loop `for (i=0 ; i<n ; i++) if (c i) ++bins[idx i]`: the
array keeps its length and counter `p` has grown by the number of passes `i`
with `c i` and `idx i = p`. -/
theorem foldl_cond_incr_spec (c : Nat → Prop) [DecidablePred c] (idx : Nat → Nat)
    (init : List Nat) :
    ∀ n,
      ((List.range n).foldl
          (fun (bins : List Nat) i => if c i then bins.modify (fun v => v + 1) (idx i) else bins)
          init).length = init.length ∧
      ∀ p, p < init.length →
        ((List.range n).foldl
            (fun (bins : List Nat) i =>
              if c i then bins.modify (fun v => v + 1) (idx i) else bins)
            init).getD p 0
          = init.getD p 0 + (List.range n).countP (fun i => decide (c i ∧ idx i = p)) := by
  intro n
  induction n with
  | zero => exact ⟨rfl, fun p _ => by simp⟩
  | succ n ih =>
    rw [List.range_succ, List.foldl_append, List.foldl_cons, List.foldl_nil]
    generalize (List.range n).foldl
        (fun (bins : List Nat) i => if c i then bins.modify (fun v => v + 1) (idx i) else bins)
        init = bins at ih ⊢
    obtain ⟨hlen, hget⟩ := ih
    constructor
    · split
      · rw [List.length_modify]; exact hlen
      · exact hlen
    · intro p hp
      have hpb : p < bins.length := by rw [hlen]; exact hp
      have hgp := hget p hp
      rw [List.countP_append, ← Nat.add_assoc, ← hgp]
      by_cases hc : c n
      · rw [if_pos hc, List.getD_eq_getElem?_getD, List.getElem?_modify,
          List.getElem?_eq_getElem hpb, List.getD_eq_getElem bins 0 hpb]
        by_cases hi : idx n = p
        · simp [hc, hi]
        · simp [hc, hi]
      · rw [if_neg hc]
        simp [hc]

/-- If `f` is injective below `n`, at most one pass `i < n` has `f i = k`. -/
theorem countP_inj_le_one (c : Nat → Prop) [DecidablePred c] (f : Nat → Nat) (k n : Nat)
    (hinj : ∀ i j, i < n → j < n → f i = f j → i = j) :
    ∀ m, m ≤ n → (List.range m).countP (fun i => decide (c i ∧ f i = k)) ≤ 1 := by
  intro m
  induction m with
  | zero => intro _; simp
  | succ m ih =>
    intro hm
    rw [List.range_succ, List.countP_append]
    by_cases h : c m ∧ f m = k
    · have hz : (List.range m).countP (fun i => decide (c i ∧ f i = k)) = 0 := by
        rw [List.countP_eq_zero]
        intro i hi hd
        have hi2 := List.mem_range.mp hi
        have := of_decide_eq_true hd
        have heq := hinj i m (by omega) (by omega) (this.2.trans h.2.symm)
        omega
      rw [hz]
      simp [h]
    · have hprev := ih (by omega)
      have hlast : List.countP (fun i => decide (c i ∧ f i = k)) [m] = 0 := by
        rw [List.countP_eq_zero]
        intro i hi hd
        rw [List.mem_singleton] at hi
        subst hi
        exact h (of_decide_eq_true hd)
      rw [hlast]
      exact hprev

/-- A pass `i < n` with `c i` and `f i = k` is counted. -/
theorem one_le_countP (c : Nat → Prop) [DecidablePred c] (f : Nat → Nat) (k n i : Nat)
    (hi : i < n) (hc : c i) (hf : f i = k) :
    1 ≤ (List.range n).countP (fun i => decide (c i ∧ f i = k)) :=
  List.countP_pos_iff.mpr ⟨i, List.mem_range.mpr hi, decide_eq_true ⟨hc, hf⟩⟩

/-- An array that is a permutation of `0 .. n-1` has `n` entries, holds every
`k < n` at some position, and holds no value twice. -/
theorem perm_range_spec (index : List Nat) (n : Nat) (hperm : index.Perm (List.range n)) :
    index.length = n ∧
    (∀ k, k < n → ∃ i, i < n ∧ index.getD i 0 = k) ∧
    (∀ i j, i < n → j < n → index.getD i 0 = index.getD j 0 → i = j) := by
  have hlen : index.length = n := by rw [hperm.length_eq, List.length_range]
  refine ⟨hlen, ?_, ?_⟩
  · intro k hk
    have hmem : k ∈ index := hperm.mem_iff.mpr (List.mem_range.mpr hk)
    obtain ⟨i, hi, heq⟩ := List.getElem_of_mem hmem
    exact ⟨i, by omega, by rw [List.getD_eq_getElem index 0 hi]; exact heq⟩
  · intro i j hi hj heq
    have hnd : index.Nodup := hperm.nodup_iff.mpr (List.nodup_range n)
    have hi2 : i < index.length := by omega
    have hj2 : j < index.length := by omega
    rw [List.getD_eq_getElem index 0 hi2, List.getD_eq_getElem index 0 hj2] at heq
    exact hnd.getElem_inj_iff.mp heq

section McptLemmas

variable {α : Type} [LinearOrderedRing α]

/-- The loop over the sorted criteria updates `mcpt_same_counts` and
`mcpt_max_counts` independently. -/
theorem rankLoop_eq (crits : List α) (index : List Nat) (save_info : List α) (n : Nat)
    (same max : List Nat) :
    rankLoop crits index save_info n same max
      = ((List.range n).foldl
          (fun (bins : List Nat) icand =>
            if save_info.getD icand 0 ≥ crits.getD (index.getD icand 0) 0
            then bins.modify (fun c => c + 1) (index.getD icand 0) else bins) same,
         (List.range n).foldl
          (fun (bins : List Nat) icand =>
            if save_info.getD (n - 1) 0 ≥ crits.getD (index.getD icand 0) 0
            then bins.modify (fun c => c + 1) (index.getD icand 0) else bins) max) :=
  foldl_pair
    (fun (bins : List Nat) icand =>
      if save_info.getD icand 0 ≥ crits.getD (index.getD icand 0) 0
      then bins.modify (fun c => c + 1) (index.getD icand 0) else bins)
    (fun (bins : List Nat) icand =>
      if save_info.getD (n - 1) 0 ≥ crits.getD (index.getD icand 0) 0
      then bins.modify (fun c => c + 1) (index.getD icand 0) else bins)
    (List.range n) same max

/-- The last entry of the sorted criteria of a replication is at least every
criterion of the replication. -/
theorem le_sorted_last (save_info : List α) (n k : Nat) (hlen : save_info.length = n)
    (hk : k < n) :
    save_info.getD k 0 ≤ (AfterFac.qsortd save_info).getD (n - 1) 0 := by
  have hslen : (AfterFac.qsortd save_info).length = n := by
    rw [AfterFac.qsortd_length, hlen]
  have hmem : save_info.getD k 0 ∈ AfterFac.qsortd save_info := by
    rw [(AfterFac.qsortd_perm save_info).mem_iff, List.getD_eq_getElem save_info 0 (by omega)]
    exact List.getElem_mem _
  obtain ⟨j, hj, heq⟩ := List.getElem_of_mem hmem
  rw [← heq, ← List.getD_eq_getElem (AfterFac.qsortd save_info) 0 hj]
  exact AfterFac.sorted_getD_le _ (AfterFac.qsortd_sorted save_info) j (n - 1) (by omega)
    (by omega)

/-- One permuted replication keeps the bounds on the counters: each counter is
at least 1, `mcpt_solo_counts[k]` and `mcpt_same_counts[k]` are at most
`mcpt_max_counts[k]`, and `mcpt_max_counts[k]` grows by at most one. -/
theorem repPermuted_spec (crit : Nat → Nat → α) (n : Nat) (s : Mcpt α) (irep r : Nat)
    (hperm : s.index.Perm (List.range n))
    (hl1 : s.mcpt_solo_counts.length = n) (hl2 : s.mcpt_same_counts.length = n)
    (hl3 : s.mcpt_max_counts.length = n)
    (hb : ∀ k, k < n →
      1 ≤ s.mcpt_solo_counts.getD k 0 ∧
      s.mcpt_solo_counts.getD k 0 ≤ s.mcpt_max_counts.getD k 0 ∧
      s.mcpt_max_counts.getD k 0 ≤ r ∧
      1 ≤ s.mcpt_same_counts.getD k 0 ∧
      s.mcpt_same_counts.getD k 0 ≤ s.mcpt_max_counts.getD k 0) :
    (repPermuted crit n s irep).index = s.index ∧
    (repPermuted crit n s irep).mcpt_solo_counts.length = n ∧
    (repPermuted crit n s irep).mcpt_same_counts.length = n ∧
    (repPermuted crit n s irep).mcpt_max_counts.length = n ∧
    ∀ k, k < n →
      1 ≤ (repPermuted crit n s irep).mcpt_solo_counts.getD k 0 ∧
      (repPermuted crit n s irep).mcpt_solo_counts.getD k 0
        ≤ (repPermuted crit n s irep).mcpt_max_counts.getD k 0 ∧
      (repPermuted crit n s irep).mcpt_max_counts.getD k 0 ≤ r + 1 ∧
      1 ≤ (repPermuted crit n s irep).mcpt_same_counts.getD k 0 ∧
      (repPermuted crit n s irep).mcpt_same_counts.getD k 0
        ≤ (repPermuted crit n s irep).mcpt_max_counts.getD k 0 := by
  obtain ⟨_, hsurj, hinj⟩ := perm_range_spec s.index n hperm
  have hsave : (saveInfo crit n irep).length = n := by
    unfold saveInfo
    rw [List.length_map, List.length_range]
  have hsolo := foldl_cond_incr_spec
    (fun icand => (saveInfo crit n irep).getD icand 0 ≥ s.crits.getD icand 0)
    (fun icand => icand) s.mcpt_solo_counts n
  have hsame := foldl_cond_incr_spec
    (fun icand => (AfterFac.qsortd (saveInfo crit n irep)).getD icand 0
      ≥ s.crits.getD (s.index.getD icand 0) 0)
    (fun icand => s.index.getD icand 0) s.mcpt_same_counts n
  have hmax := foldl_cond_incr_spec
    (fun icand => (AfterFac.qsortd (saveInfo crit n irep)).getD (n - 1) 0
      ≥ s.crits.getD (s.index.getD icand 0) 0)
    (fun icand => s.index.getD icand 0) s.mcpt_max_counts n
  beta_reduce at hsolo hsame hmax
  have e1 : (repPermuted crit n s irep).mcpt_solo_counts
      = (List.range n).foldl
          (fun (bins : List Nat) icand =>
            if (saveInfo crit n irep).getD icand 0 ≥ s.crits.getD icand 0
            then bins.modify (fun c => c + 1) icand else bins) s.mcpt_solo_counts := rfl
  have e2 : (repPermuted crit n s irep).mcpt_same_counts
      = (List.range n).foldl
          (fun (bins : List Nat) icand =>
            if (AfterFac.qsortd (saveInfo crit n irep)).getD icand 0
              ≥ s.crits.getD (s.index.getD icand 0) 0
            then bins.modify (fun c => c + 1) (s.index.getD icand 0) else bins)
          s.mcpt_same_counts := by
    show (rankLoop _ _ _ _ _ _).1 = _
    rw [rankLoop_eq]
  have e3 : (repPermuted crit n s irep).mcpt_max_counts
      = (List.range n).foldl
          (fun (bins : List Nat) icand =>
            if (AfterFac.qsortd (saveInfo crit n irep)).getD (n - 1) 0
              ≥ s.crits.getD (s.index.getD icand 0) 0
            then bins.modify (fun c => c + 1) (s.index.getD icand 0) else bins)
          s.mcpt_max_counts := by
    show (rankLoop _ _ _ _ _ _).2 = _
    rw [rankLoop_eq]
  rw [e1, e2, e3]
  refine ⟨rfl, hsolo.1.trans hl1, hsame.1.trans hl2, hmax.1.trans hl3, ?_⟩
  intro k hk
  obtain ⟨b1, b2, b3, b4, b5⟩ := hb k hk
  rw [hsolo.2 k (by omega), hsame.2 k (by omega), hmax.2 k (by omega)]
  have hm1 := countP_inj_le_one
    (fun icand => (AfterFac.qsortd (saveInfo crit n irep)).getD (n - 1) 0
      ≥ s.crits.getD (s.index.getD icand 0) 0)
    (fun icand => s.index.getD icand 0) k n hinj n (le_refl n)
  beta_reduce at hm1
  have hsm : (List.range n).countP (fun i => decide
        ((AfterFac.qsortd (saveInfo crit n irep)).getD i 0
          ≥ s.crits.getD (s.index.getD i 0) 0 ∧ s.index.getD i 0 = k))
      ≤ (List.range n).countP (fun i => decide
        ((AfterFac.qsortd (saveInfo crit n irep)).getD (n - 1) 0
          ≥ s.crits.getD (s.index.getD i 0) 0 ∧ s.index.getD i 0 = k)) := by
    apply List.countP_mono_left
    intro i hi hd
    have hi2 := List.mem_range.mp hi
    have h := of_decide_eq_true hd
    refine decide_eq_true ⟨le_trans h.1 ?_, h.2⟩
    exact AfterFac.sorted_getD_le _ (AfterFac.qsortd_sorted _) i (n - 1) (by omega)
      (by rw [AfterFac.qsortd_length, hsave]; omega)
  have hso : (List.range n).countP (fun i => decide
        ((saveInfo crit n irep).getD i 0 ≥ s.crits.getD i 0 ∧ i = k))
      ≤ (List.range n).countP (fun i => decide
        ((AfterFac.qsortd (saveInfo crit n irep)).getD (n - 1) 0
          ≥ s.crits.getD (s.index.getD i 0) 0 ∧ s.index.getD i 0 = k)) := by
    have hle1 := countP_inj_le_one
      (fun icand => (saveInfo crit n irep).getD icand 0 ≥ s.crits.getD icand 0)
      (fun icand => icand) k n (fun i j _ _ h => h) n (le_refl n)
    beta_reduce at hle1
    by_cases hz : (List.range n).countP (fun i => decide
        ((saveInfo crit n irep).getD i 0 ≥ s.crits.getD i 0 ∧ i = k)) = 0
    · rw [hz]; exact Nat.zero_le _
    · have hpos : 0 < (List.range n).countP (fun i => decide
          ((saveInfo crit n irep).getD i 0 ≥ s.crits.getD i 0 ∧ i = k)) := by omega
      obtain ⟨i, _, hd⟩ := List.countP_pos_iff.mp hpos
      have h := of_decide_eq_true hd
      have hik : i = k := h.2
      subst hik
      obtain ⟨j, hj, hjk⟩ := hsurj i hk
      have hge : (AfterFac.qsortd (saveInfo crit n irep)).getD (n - 1) 0
          ≥ s.crits.getD (s.index.getD j 0) 0 := by
        rw [hjk]
        exact le_trans h.1 (le_sorted_last (saveInfo crit n irep) n i hsave hk)
      have := one_le_countP
        (fun icand => (AfterFac.qsortd (saveInfo crit n irep)).getD (n - 1) 0
          ≥ s.crits.getD (s.index.getD icand 0) 0)
        (fun icand => s.index.getD icand 0) i n j hj hge hjk
      beta_reduce at this
      omega
  omega

/-- After `r + 1` replications `index` is a permutation of the candidates, the
three counter arrays are `n` long, and every candidate's counters satisfy
`1 ≤ solo ≤ max ≤ r + 1` and `1 ≤ same ≤ max`. -/
theorem mcptRun_spec (qsortdsi : List α → List Nat → List α × List Nat)
    (crit : Nat → Nat → α) (n : Nat)
    (hperm : (qsortdsi (saveInfo crit n 0) (List.range n)).2.Perm (List.range n)) :
    ∀ r,
      (mcptRun qsortdsi crit n (r + 1)).index.Perm (List.range n) ∧
      (mcptRun qsortdsi crit n (r + 1)).mcpt_solo_counts.length = n ∧
      (mcptRun qsortdsi crit n (r + 1)).mcpt_same_counts.length = n ∧
      (mcptRun qsortdsi crit n (r + 1)).mcpt_max_counts.length = n ∧
      ∀ k, k < n →
        1 ≤ (mcptRun qsortdsi crit n (r + 1)).mcpt_solo_counts.getD k 0 ∧
        (mcptRun qsortdsi crit n (r + 1)).mcpt_solo_counts.getD k 0
          ≤ (mcptRun qsortdsi crit n (r + 1)).mcpt_max_counts.getD k 0 ∧
        (mcptRun qsortdsi crit n (r + 1)).mcpt_max_counts.getD k 0 ≤ r + 1 ∧
        1 ≤ (mcptRun qsortdsi crit n (r + 1)).mcpt_same_counts.getD k 0 ∧
        (mcptRun qsortdsi crit n (r + 1)).mcpt_same_counts.getD k 0
          ≤ (mcptRun qsortdsi crit n (r + 1)).mcpt_max_counts.getD k 0 := by
  intro r
  induction r with
  | zero =>
    have h0 : mcptRun qsortdsi crit n (0 + 1) = repOriginal qsortdsi crit n := by
      unfold mcptRun
      rw [show List.range (0 + 1) = [0] from rfl, List.foldl_cons, List.foldl_nil]
      exact if_pos rfl
    rw [h0]
    have hone : ∀ k, k < n → (List.replicate n 1).getD k 0 = 1 := by
      intro k hk
      rw [List.getD_eq_getElem _ _ (by rw [List.length_replicate]; exact hk)]
      exact List.getElem_replicate _ _
    refine ⟨hperm, List.length_replicate n 1, List.length_replicate n 1,
      List.length_replicate n 1, ?_⟩
    intro k hk
    show 1 ≤ (List.replicate n 1).getD k 0 ∧
      (List.replicate n 1).getD k 0 ≤ (List.replicate n 1).getD k 0 ∧
      (List.replicate n 1).getD k 0 ≤ 0 + 1 ∧
      1 ≤ (List.replicate n 1).getD k 0 ∧
      (List.replicate n 1).getD k 0 ≤ (List.replicate n 1).getD k 0
    rw [hone k hk]
    exact ⟨le_refl _, le_refl _, le_refl _, le_refl _, le_refl _⟩
  | succ r ih =>
    have hstep : mcptRun qsortdsi crit n (r + 1 + 1)
        = repPermuted crit n (mcptRun qsortdsi crit n (r + 1)) (r + 1) := by
      unfold mcptRun
      rw [List.range_succ, List.foldl_append, List.foldl_cons, List.foldl_nil]
      exact if_neg (Nat.succ_ne_zero r)
    obtain ⟨hp, hl1, hl2, hl3, hb⟩ := ih
    obtain ⟨hi, h1, h2, h3, h4⟩ :=
      repPermuted_spec crit n (mcptRun qsortdsi crit n (r + 1)) (r + 1) (r + 1) hp hl1 hl2 hl3 hb
    rw [hstep]
    exact ⟨hi ▸ hp, h1, h2, h3, h4⟩

/-- C28: after all `nreps ≥ 1` replications, provided `qsortdsi` left in
`index` a permutation of the candidates (and with `qsortd` an ascending sort),
every candidate `k` has `1 ≤ mcpt_solo_counts[k] ≤ mcpt_max_counts[k] ≤ nreps`
and `1 ≤ mcpt_same_counts[k] ≤ mcpt_max_counts[k]`; so each reported p-value
`count / nreps` lies in `[1/nreps, 1]`, and the solo and min p-values are at
most the max p-value. -/
theorem C28_mcpt_counter_bounds (qsortdsi : List α → List Nat → List α × List Nat)
    (crit : Nat → Nat → α) (n nreps k : Nat) (hr : 1 ≤ nreps) (hk : k < n)
    (hperm : (qsortdsi (saveInfo crit n 0) (List.range n)).2.Perm (List.range n)) :
    (1 ≤ (mcptRun qsortdsi crit n nreps).mcpt_solo_counts.getD k 0 ∧
      (mcptRun qsortdsi crit n nreps).mcpt_solo_counts.getD k 0
        ≤ (mcptRun qsortdsi crit n nreps).mcpt_max_counts.getD k 0 ∧
      (mcptRun qsortdsi crit n nreps).mcpt_max_counts.getD k 0 ≤ nreps ∧
      1 ≤ (mcptRun qsortdsi crit n nreps).mcpt_same_counts.getD k 0 ∧
      (mcptRun qsortdsi crit n nreps).mcpt_same_counts.getD k 0
        ≤ (mcptRun qsortdsi crit n nreps).mcpt_max_counts.getD k 0) ∧
    (∀ c ∈ [(mcptRun qsortdsi crit n nreps).mcpt_solo_counts.getD k 0,
            (mcptRun qsortdsi crit n nreps).mcpt_same_counts.getD k 0,
            (mcptRun qsortdsi crit n nreps).mcpt_max_counts.getD k 0],
      1 / (nreps : ℚ) ≤ (c : ℚ) / (nreps : ℚ) ∧ (c : ℚ) / (nreps : ℚ) ≤ 1) ∧
    ((mcptRun qsortdsi crit n nreps).mcpt_solo_counts.getD k 0 : ℚ) / (nreps : ℚ)
      ≤ ((mcptRun qsortdsi crit n nreps).mcpt_max_counts.getD k 0 : ℚ) / (nreps : ℚ) ∧
    ((mcptRun qsortdsi crit n nreps).mcpt_same_counts.getD k 0 : ℚ) / (nreps : ℚ)
      ≤ ((mcptRun qsortdsi crit n nreps).mcpt_max_counts.getD k 0 : ℚ) / (nreps : ℚ) := by
  obtain ⟨r, rfl⟩ : ∃ r, nreps = r + 1 := ⟨nreps - 1, by omega⟩
  obtain ⟨_, _, _, _, hb⟩ := mcptRun_spec qsortdsi crit n hperm r
  obtain ⟨b1, b2, b3, b4, b5⟩ := hb k hk
  have hpos : (0 : ℚ) < ((r + 1 : Nat) : ℚ) := by exact_mod_cast Nat.succ_pos r
  have hp : ∀ c : Nat, 1 ≤ c → c ≤ r + 1 →
      1 / ((r + 1 : Nat) : ℚ) ≤ (c : ℚ) / ((r + 1 : Nat) : ℚ) ∧
      (c : ℚ) / ((r + 1 : Nat) : ℚ) ≤ 1 := by
    intro c h1 h2
    constructor
    · rw [div_le_div_iff_of_pos_right hpos]
      exact_mod_cast h1
    · rw [div_le_one hpos]
      exact_mod_cast h2
  refine ⟨⟨b1, b2, b3, b4, b5⟩, ?_, ?_, ?_⟩
  · intro c hc
    simp only [List.mem_cons, List.mem_singleton, List.not_mem_nil, or_false] at hc
    rcases hc with hc | hc | hc
    · rw [hc]; exact hp _ b1 (le_trans b2 b3)
    · rw [hc]; exact hp _ b4 (le_trans b5 b3)
    · rw [hc]; exact hp _ (le_trans b1 b2) b3
  · rw [div_le_div_iff_of_pos_right hpos]
    exact_mod_cast b2
  · rw [div_le_div_iff_of_pos_right hpos]
    exact_mod_cast b5

end McptLemmas

/-- Witness of C28: 3 candidates, 4 replications, the example criteria and the
example `qsortdsi`; candidate 1. -/
theorem C28_mcpt_counter_bounds_witness :
    (1 ≤ 4 ∧ 1 < 3 ∧
      (exampleQsortdsi (saveInfo exampleCrit 3 0) (List.range 3)).2.Perm (List.range 3)) ∧
    1 ≤ (mcptRun exampleQsortdsi exampleCrit 3 4).mcpt_solo_counts.getD 1 0 ∧
    (mcptRun exampleQsortdsi exampleCrit 3 4).mcpt_solo_counts.getD 1 0
      ≤ (mcptRun exampleQsortdsi exampleCrit 3 4).mcpt_max_counts.getD 1 0 ∧
    (mcptRun exampleQsortdsi exampleCrit 3 4).mcpt_max_counts.getD 1 0 ≤ 4 :=
  ⟨⟨by decide, by decide, by decide⟩,
   (C28_mcpt_counter_bounds exampleQsortdsi exampleCrit 3 4 1 (by decide) (by decide)
      (by decide)).1.1,
   (C28_mcpt_counter_bounds exampleQsortdsi exampleCrit 3 4 1 (by decide) (by decide)
      (by decide)).1.2.1,
   (C28_mcpt_counter_bounds exampleQsortdsi exampleCrit 3 4 1 (by decide) (by decide)
      (by decide)).1.2.2.1⟩

end MiOnly
